import Mathlib

/-!
# concurrent-file-checker: a verification development

Shallow embedding of `main.go`:

* `hashFile`  - open a file, stream it through a SHA-256 accumulator, render the digest in hex;
* `worker`    - the per-goroutine loop `for path := range jobs`;
* `main`      - the pipeline of goroutines (walker, workers, completion watcher, sink) over two
  unbuffered channels and a wait-group, as a labelled transition system (`step`).

The Go standard library pieces the program calls (`crypto/sha256`, `io.Copy`, `os.Open`,
`filepath.Walk`, `fmt`) are modelled alongside.
-/

namespace FileChecker

/-! ## crypto/sha256 -/

namespace sha256

/-- Round constants of SHA-256. -/
def K : List Nat := [
  0x428a2f98, 0x71374491, 0xb5c0fbcf, 0xe9b5dba5, 0x3956c25b, 0x59f111f1, 0x923f82a4, 0xab1c5ed5,
  0xd807aa98, 0x12835b01, 0x243185be, 0x550c7dc3, 0x72be5d74, 0x80deb1fe, 0x9bdc06a7, 0xc19bf174,
  0xe49b69c1, 0xefbe4786, 0x0fc19dc6, 0x240ca1cc, 0x2de92c6f, 0x4a7484aa, 0x5cb0a9dc, 0x76f988da,
  0x983e5152, 0xa831c66d, 0xb00327c8, 0xbf597fc7, 0xc6e00bf3, 0xd5a79147, 0x06ca6351, 0x14292967,
  0x27b70a85, 0x2e1b2138, 0x4d2c6dfc, 0x53380d13, 0x650a7354, 0x766a0abb, 0x81c2c92e, 0x92722c85,
  0xa2bfe8a1, 0xa81a664b, 0xc24b8b70, 0xc76c51a3, 0xd192e819, 0xd6990624, 0xf40e3585, 0x106aa070,
  0x19a4c116, 0x1e376c08, 0x2748774c, 0x34b0bcb5, 0x391c0cb3, 0x4ed8aa4a, 0x5b9cca4f, 0x682e6ff3,
  0x748f82ee, 0x78a5636f, 0x84c87814, 0x8cc70208, 0x90befffa, 0xa4506ceb, 0xbef9a3f7, 0xc67178f2]

/-- Truncation to a `uint32`. -/
def w32 (x : Nat) : Nat := x % 4294967296

/-- Rotate a 32-bit word right by `n` bits (`bits.RotateLeft32(x, -n)`). -/
def rotr (x n : Nat) : Nat := w32 ((x >>> n) ||| (x <<< (32 - n)))

/-- The eight chaining words `h[0..7]` of the digest. -/
structure Regs where
  a : Nat
  b : Nat
  c : Nat
  d : Nat
  e : Nat
  f : Nat
  g : Nat
  h : Nat
deriving DecidableEq, Repr

/-- Initial chaining value (`init0 .. init7`). -/
def init : Regs :=
  ⟨0x6a09e667, 0xbb67ae85, 0x3c6ef372, 0xa54ff53a, 0x510e527f, 0x9b05688c, 0x1f83d9ab, 0x5be0cd19⟩

/-- Big-endian value of a byte string. -/
def beNat (b : List UInt8) : Nat :=
  b.foldl (fun acc x => acc * 256 + x.toNat) 0

/-- The first `n` big-endian 32-bit words of a block. -/
def words : Nat → List UInt8 → List Nat
  | 0, _ => []
  | n + 1, p => beNat (p.take 4) :: words n (p.drop 4)

/-- Extend the message schedule by `n` further words. -/
def extend : Nat → List Nat → List Nat
  | 0, w => w
  | n + 1, w =>
    let i := w.length
    let v1 := w.getD (i - 2) 0
    let t1 := rotr v1 17 ^^^ rotr v1 19 ^^^ (v1 >>> 10)
    let v2 := w.getD (i - 15) 0
    let t2 := rotr v2 7 ^^^ rotr v2 18 ^^^ (v2 >>> 3)
    extend n (w ++ [w32 (t1 + w.getD (i - 7) 0 + t2 + w.getD (i - 16) 0)])

/-- One of the 64 rounds, on the round constant and schedule word `kw`. -/
def round (r : Regs) (kw : Nat × Nat) : Regs :=
  let t1 := r.h + (rotr r.e 6 ^^^ rotr r.e 11 ^^^ rotr r.e 25)
    + ((r.e &&& r.f) ^^^ ((r.e ^^^ 4294967295) &&& r.g)) + kw.1 + kw.2
  let t2 := (rotr r.a 2 ^^^ rotr r.a 13 ^^^ rotr r.a 22)
    + ((r.a &&& r.b) ^^^ (r.a &&& r.c) ^^^ (r.b &&& r.c))
  ⟨w32 (t1 + t2), r.a, r.b, r.c, w32 (r.d + t1), r.e, r.f, r.g⟩

/-- The compression function on one 64-byte block. -/
def block (h : Regs) (p : List UInt8) : Regs :=
  let w := extend 48 (words 16 p)
  let r := (K.zip w).foldl round h
  ⟨w32 (h.a + r.a), w32 (h.b + r.b), w32 (h.c + r.c), w32 (h.d + r.d),
   w32 (h.e + r.e), w32 (h.f + r.f), w32 (h.g + r.g), w32 (h.h + r.h)⟩

/-- Compress every complete 64-byte block of `p`, returning the chaining value and the
incomplete tail. The first argument bounds the number of blocks. -/
def absorb : Nat → Regs → List UInt8 → Regs × List UInt8
  | 0, h, p => (h, p)
  | n + 1, h, p =>
    if p.length < 64 then (h, p) else absorb n (block h (p.take 64)) (p.drop 64)

/-- Big-endian bytes of a 32-bit word. -/
def be32 (x : Nat) : List UInt8 :=
  [UInt8.ofNat (x / 16777216), UInt8.ofNat (x / 65536), UInt8.ofNat (x / 256), UInt8.ofNat x]

/-- Big-endian bytes of a 64-bit word (`byteorder.BEPutUint64`). -/
def be64 (x : Nat) : List UInt8 :=
  be32 (x / 4294967296) ++ be32 x

/-- The 32 bytes of a chaining value. -/
def Regs.bytes (r : Regs) : List UInt8 :=
  be32 r.a ++ be32 r.b ++ be32 r.c ++ be32 r.d ++ be32 r.e ++ be32 r.f ++ be32 r.g ++ be32 r.h

/-- The padding appended to a message of `len` bytes: a one bit, zero bits up to 56 bytes
modulo 64, then the length in bits as a `uint64`. -/
def padding (len : Nat) : List UInt8 :=
  let t := if len % 64 < 56 then 56 - len % 64 else 64 + 56 - len % 64
  0x80 :: List.replicate (t - 1) 0 ++ be64 (len * 8 % 18446744073709551616)

/-- Reference SHA-256 (FIPS 180-4) of a whole message held in memory. -/
def sum256 (msg : List UInt8) : List UInt8 :=
  let m := msg ++ padding msg.length
  (absorb m.length init m).1.bytes

/-- The running state of a `sha256.digest`: chaining value, buffered partial block and the
number of bytes written so far (a `uint64`). -/
structure digest where
  h : Regs
  x : List UInt8
  len : Nat
deriving DecidableEq, Repr

/-- The Go call `sha256.New()`. -/
def New : digest := ⟨init, [], 0⟩

/-- The Go method `(*digest).Write`: buffer `p`, compressing every block that becomes complete. -/
def digest.Write (d : digest) (p : List UInt8) : digest :=
  let r := absorb (d.x ++ p).length d.h (d.x ++ p)
  ⟨r.1, r.2, (d.len + p.length) % 18446744073709551616⟩

/-- The Go call `(*digest).Sum(nil)`: pad a copy of the state and return the 32 digest bytes. -/
def digest.Sum (d : digest) : List UInt8 :=
  (d.Write (padding d.len)).h.bytes

end sha256

/-! ## fmt, os, io -/

/-- One lowercase hexadecimal digit. -/
def hexDigit (n : Nat) : Char :=
  if n < 10 then Char.ofNat (48 + n) else Char.ofNat (87 + n)

/-- The Go call `fmt.Sprintf("%x", b)` for a byte slice: two lowercase hex digits per byte. -/
def sprintfHex (b : List UInt8) : String :=
  String.mk (b.flatMap fun x => [hexDigit (x.toNat / 16), hexDigit (x.toNat % 16)])

/-- A Go `error` value, identified by its message. -/
abbrev Error := String

/-- What the file system holds at a path, as seen by `os.Open` and successive `Read` calls:
either the open fails, or reading yields a sequence of chunks ended by `io.EOF` (`none`) or by
a read error. -/
inductive File where
  | openFails (err : Error)
  | readable (chunks : List (List UInt8)) (readErr : Option Error)
deriving DecidableEq, Repr

/-- A file system: what is found at each path. -/
abbrev FS := String → File

/-- The Go call `io.Copy(h, f)`: write every chunk read from the file into the hash, and report
the read error, if any, that ended the stream. -/
def ioCopy (h : sha256.digest) : List (List UInt8) → Option Error → sha256.digest × Option Error
  | [], e => (h, e)
  | c :: cs, e => ioCopy (h.Write c) cs e

/-! ## main.go -/

/-- The record `FileResult` of a path, its digest and the error met while hashing it. -/
structure FileResult where
  Path : String
  Hash : String
  Err : Option Error
deriving DecidableEq, Repr

/-- The function `hashFile`: open the file, stream it through SHA-256, and return the digest
in hexadecimal, or the open or read error with an empty digest. -/
def hashFile (fs : FS) (path : String) : String × Option Error :=
  match fs path with
  | .openFails err => ("", some err)
  | .readable chunks readErr =>
    match ioCopy sha256.New chunks readErr with
    | (_, some err) => ("", some err)
    | (h, none) => (sprintfHex h.Sum, none)

/-- The body of the loop of `worker`: hash one path and build its `FileResult`. -/
def workerBody (fs : FS) (path : String) : FileResult :=
  let (hash, err) := hashFile fs path
  { Path := path, Hash := hash, Err := err }

/-- The function `worker`, as a function from the paths it receives on `jobs`
until the channel is closed to the results it sends on `results`. -/
def worker (fs : FS) : List String → List FileResult
  | [] => []
  | path :: jobs => workerBody fs path :: worker fs jobs

/-- The line the sink prints for one result (`fmt.Printf` in the loop of `main`). -/
def sinkLine (res : FileResult) : String :=
  match res.Err with
  | some err => "ERR: " ++ res.Path ++ " (" ++ err ++ ")\n"
  | none => res.Hash ++ "  " ++ res.Path ++ "\n"

/-- The loop `for res := range results` of `main`, as a function from the results that
arrive to the text written to standard output, one write per result. -/
def sink : List FileResult → List String
  | [] => []
  | res :: rest => sinkLine res :: sink rest

/-- The bytes of a string (Go strings are byte strings in UTF-8). -/
def bytesOf (s : String) : List UInt8 := s.toUTF8.data.toList

/-! ## The walk -/

/-- One invocation of the callback by `filepath.Walk`: the path of the entry, whether
`info.IsDir()` holds, and the error the traversal reports for it. A traversal is the list of
invocations `filepath.Walk` makes for as long as the callback returns `nil`. -/
structure WalkEntry where
  path : String
  isDir : Bool
  err : Option Error
deriving DecidableEq, Repr

/-- The closure passed to `filepath.Walk`: the path it prints and sends on `jobs`, if any,
and the error it returns. -/
def walkFn (e : WalkEntry) : Option String × Option Error :=
  match e.err with
  | some err => (none, some err)
  | none => if !e.isDir then (some e.path, none) else (none, none)

/-- The paths sent on `jobs` by `filepath.Walk(root, walkFn)`, which stops at the first
invocation of the callback that returns a non-nil error. -/
def walk : List WalkEntry → List String
  | [] => []
  | e :: rest =>
    match walkFn e with
    | (_, some _) => []
    | (some path, none) => path :: walk rest
    | (none, none) => walk rest

/-! ## The pipeline of `main` as a transition system -/

/-- The parameters of a run: the number of workers (the constant `workerCount`, 4 in the
source), the traversal of `root`, and the file system the workers read. -/
structure Config where
  workerCount : Nat
  entries : List WalkEntry
  fs : FS

/-- The program as written: `workerCount := 4`, over a traversal of `root` and a file
system. -/
def main (entries : List WalkEntry) (fs : FS) : Config :=
  { workerCount := 4, entries := entries, fs := fs }

/-- One write to standard output. -/
inductive Out where
  | hashing (path : String)
  | result (res : FileResult)
deriving DecidableEq, Repr

/-- The text of a write: `fmt.Println("Hashing:", path)` or the `fmt.Printf` of the sink. -/
def Out.text : Out → String
  | .hashing path => "Hashing: " ++ path ++ "\n"
  | .result res => sinkLine res

/-- The path of a `Hashing:` line. -/
def Out.hashing? : Out → Option String
  | .hashing path => some path
  | .result _ => none

/-- The result reported by a result line. -/
def Out.result? : Out → Option FileResult
  | .hashing _ => none
  | .result res => some res

/-- Control state of the main goroutine: the worker-spawning loop at index `i`, the two `go`
statements, the `range results` loop (blocked in the receive, or printing the result just
received), and after `main` has returned. -/
inductive MainPc where
  | spawn (i : Nat)
  | goWalk
  | goWatch
  | consume
  | printing (res : FileResult)
  | exited
deriving DecidableEq, Repr

/-- Control state of the walk goroutine: not started, inside `filepath.Walk` with the
invocations still to come, blocked in `jobs <- path`, about to `close(jobs)`, returned. -/
inductive WalkerPc where
  | idle
  | walking (rest : List WalkEntry)
  | sending (path : String) (rest : List WalkEntry)
  | closing
  | done
deriving DecidableEq, Repr

/-- Control state of a worker goroutine: blocked in the receive of `range jobs`, calling
`hashFile`, blocked in `results <- ...`, running the deferred `wg.Done()`, returned. -/
inductive WorkerPc where
  | recv
  | hashing (path : String)
  | sending (res : FileResult)
  | deferred
  | done
deriving DecidableEq, Repr

/-- Control state of the completion watcher: not started, in `wg.Wait()`, about to
`close(results)`, returned. -/
inductive WatcherPc where
  | idle
  | waiting
  | closing
  | done
deriving DecidableEq, Repr

/-- A state of the running program. `jobsCloses` and `resultsCloses` count the executed
`close` calls on each channel (a channel is closed when its count is positive); `panicked`
records a run-time panic (send on a closed channel, close of a closed channel, negative
wait-group counter). `sent` and `received` record the values that went through `jobs` and
the values the sink received from `results`. -/
structure State where
  main : MainPc
  walker : WalkerPc
  workers : List WorkerPc
  watcher : WatcherPc
  wg : Nat
  jobsCloses : Nat
  resultsCloses : Nat
  panicked : Bool
  stdout : List Out
  sent : List String
  received : List FileResult
deriving DecidableEq, Repr

/-- The state in which `main` starts: channels made, no goroutine started. -/
def State.init : State :=
  { main := .spawn 0, walker := .idle, workers := [], watcher := .idle, wg := 0,
    jobsCloses := 0, resultsCloses := 0, panicked := false, stdout := [], sent := [],
    received := [] }

/-- The moves of the system: a step of one goroutine on its own, or a rendezvous on one of
the two unbuffered channels between the sender and a receiver. -/
inductive Action where
  | main
  | walker
  | jobs (w : Nat)
  | worker (w : Nat)
  | results (w : Nat)
  | watcher
deriving DecidableEq, Repr

/-- A step of the main goroutine. -/
def mainStep (c : Config) (s : State) : Option State :=
  match s.main with
  | .spawn i =>
    if i < c.workerCount then
      some { s with wg := s.wg + 1, workers := s.workers ++ [.recv], main := .spawn (i + 1) }
    else some { s with main := .goWalk }
  | .goWalk => some { s with walker := .walking c.entries, main := .goWatch }
  | .goWatch => some { s with watcher := .waiting, main := .consume }
  | .consume => if 0 < s.resultsCloses then some { s with main := .exited } else none
  | .printing res => some { s with stdout := s.stdout ++ [.result res], main := .consume }
  | .exited => none

/-- A step of the walk goroutine. -/
def walkerStep (s : State) : Option State :=
  match s.walker with
  | .idle => none
  | .walking [] => some { s with walker := .closing }
  | .walking (e :: rest) =>
    match walkFn e with
    | (_, some _) => some { s with walker := .closing }
    | (some path, none) =>
      some { s with stdout := s.stdout ++ [.hashing path], walker := .sending path rest }
    | (none, none) => some { s with walker := .walking rest }
  | .sending _ _ => if 0 < s.jobsCloses then some { s with panicked := true } else none
  | .closing =>
    some { s with jobsCloses := s.jobsCloses + 1, panicked := decide (0 < s.jobsCloses),
                  walker := .done }
  | .done => none

/-- The send `jobs <- path` of the walker meets the receive of worker `w`. -/
def jobsHandoff (s : State) (w : Nat) : Option State :=
  match s.walker, s.workers[w]? with
  | .sending path rest, some .recv =>
    if s.jobsCloses = 0 then
      some { s with walker := .walking rest, workers := s.workers.set w (.hashing path),
                    sent := s.sent ++ [path] }
    else none
  | _, _ => none

/-- A step of worker `w` on its own. -/
def workerStep (c : Config) (s : State) (w : Nat) : Option State :=
  match s.workers[w]? with
  | none => none
  | some .recv =>
    if 0 < s.jobsCloses then some { s with workers := s.workers.set w .deferred } else none
  | some (.hashing path) =>
    some { s with workers := s.workers.set w (.sending (workerBody c.fs path)) }
  | some (.sending _) => if 0 < s.resultsCloses then some { s with panicked := true } else none
  | some .deferred =>
    if s.wg = 0 then some { s with panicked := true }
    else some { s with wg := s.wg - 1, workers := s.workers.set w .done }
  | some .done => none

/-- The send `results <- FileResult{...}` of worker `w` meets the receive of the sink. -/
def resultsHandoff (s : State) (w : Nat) : Option State :=
  match s.main, s.workers[w]? with
  | .consume, some (.sending res) =>
    if s.resultsCloses = 0 then
      some { s with main := .printing res, workers := s.workers.set w .recv,
                    received := s.received ++ [res] }
    else none
  | _, _ => none

/-- A step of the completion watcher. -/
def watcherStep (s : State) : Option State :=
  match s.watcher with
  | .idle => none
  | .waiting => if s.wg = 0 then some { s with watcher := .closing } else none
  | .closing =>
    some { s with resultsCloses := s.resultsCloses + 1,
                  panicked := decide (0 < s.resultsCloses), watcher := .done }
  | .done => none

/-- The transition function: the state after action `a`, if `a` is enabled. Nothing runs
after a panic or after `main` has returned. -/
def step (c : Config) (s : State) (a : Action) : Option State :=
  if s.panicked = true ∨ s.main = .exited then none
  else
    match a with
    | .main => mainStep c s
    | .walker => walkerStep s
    | .jobs w => jobsHandoff s w
    | .worker w => workerStep c s w
    | .results w => resultsHandoff s w
    | .watcher => watcherStep s

/-- Run a schedule (a list of actions) from a state. -/
def run (c : Config) : State → List Action → Option State
  | s, [] => some s
  | s, a :: rest =>
    match step c s a with
    | none => none
    | some t => run c t rest

/-- The states some schedule leads to from the initial state. -/
def Reachable (c : Config) (s : State) : Prop :=
  ∃ sched, run c State.init sched = some s

/-! ## Invariant of the pipeline -/

/-- The paths the walk goroutine has still to send on `jobs`. -/
def WalkerPc.pending (c : Config) : WalkerPc → List String
  | .idle => walk c.entries
  | .walking rest => walk rest
  | .sending path rest => path :: walk rest
  | .closing => []
  | .done => []

/-- The path whose `Hashing:` line is printed and whose send has not yet completed. -/
def WalkerPc.announced : WalkerPc → List String
  | .sending path _ => [path]
  | _ => []

/-- The result a worker owes for the path it holds. -/
def WorkerPc.inflight (fs : FS) : WorkerPc → List FileResult
  | .hashing path => [workerBody fs path]
  | .sending res => [res]
  | _ => []

/-- Whether a worker has not yet run `wg.Done()`. -/
def WorkerPc.live : WorkerPc → Bool
  | .done => false
  | _ => true

/-- Whether a worker has left its `range jobs` loop. -/
def WorkerPc.left : WorkerPc → Bool
  | .deferred => true
  | .done => true
  | _ => false

/-- The result the sink has received and not yet printed. -/
def MainPc.unprinted : MainPc → List FileResult
  | .printing res => [res]
  | _ => []

/-- How far `main` is, against the goroutines started so far. -/
def PhaseOk (c : Config) (s : State) : Prop :=
  match s.main with
  | .spawn i => i ≤ c.workerCount ∧ s.workers.length = i ∧ s.walker = .idle ∧ s.watcher = .idle
  | .goWalk => s.workers.length = c.workerCount ∧ s.walker = .idle ∧ s.watcher = .idle
  | .goWatch => s.workers.length = c.workerCount ∧ s.walker ≠ .idle ∧ s.watcher = .idle
  | .consume => s.workers.length = c.workerCount ∧ s.walker ≠ .idle ∧ s.watcher ≠ .idle
  | .printing _ => s.workers.length = c.workerCount ∧ s.walker ≠ .idle ∧ s.watcher ≠ .idle
  | .exited => s.workers.length = c.workerCount ∧ s.walker ≠ .idle ∧ s.watcher = .done

/-- Number of result lines for `path` among some writes. -/
def resultsFor (path : String) (out : List Out) : Nat :=
  (out.filterMap Out.result?).countP (fun r => decide (r.Path = path))

/-- Number of `Hashing:` lines for `path` among some writes. -/
def hashingsFor (path : String) (out : List Out) : Nat :=
  (out.filterMap Out.hashing?).count path

/-- Every result line has, before it, more `Hashing:` lines for its path than result lines
for that path: each result line is preceded by a `Hashing:` line of its own. -/
def Ordered (out : List Out) : Prop :=
  ∀ pre res post, out = pre ++ Out.result res :: post →
    resultsFor res.Path pre < hashingsFor res.Path pre

/-- The inductive invariant of the pipeline. -/
structure Inv (c : Config) (s : State) : Prop where
  noPanic : s.panicked = false
  phase : PhaseOk c s
  wgCount : s.wg = s.workers.countP WorkerPc.live
  jobs : s.jobsCloses = if s.walker = .done then 1 else 0
  results : s.resultsCloses = if s.watcher = .done then 1 else 0
  watcherLate : s.watcher = .closing ∨ s.watcher = .done → s.wg = 0
  returning : ∀ w ∈ s.workers, w.left = true → s.walker = .done
  walked : s.sent ++ s.walker.pending c = walk c.entries
  conserved : (s.sent.map (workerBody c.fs)).Perm
    (s.received ++ s.workers.flatMap (WorkerPc.inflight c.fs))
  hashLines : s.stdout.filterMap Out.hashing? = s.sent ++ s.walker.announced
  resultLines : s.stdout.filterMap Out.result? ++ s.main.unprinted = s.received
  ordered : Ordered s.stdout

/-! ## Termination measure -/

/-- Steps `main` has still to take on its own. -/
def MainPc.rank (c : Config) : MainPc → Nat
  | .spawn i => 3 * (c.workerCount - i) + 5
  | .goWalk => 4
  | .goWatch => 3
  | .printing _ => 2
  | .consume => 1
  | .exited => 0

/-- Steps the walk goroutine has still to take. -/
def WalkerPc.rank (c : Config) : WalkerPc → Nat
  | .idle => 2 * c.entries.length + 3
  | .walking rest => 2 * rest.length + 2
  | .sending _ rest => 2 * rest.length + 3
  | .closing => 1
  | .done => 0

/-- Steps a worker has still to take before it next waits for a job. -/
def WorkerPc.rank : WorkerPc → Nat
  | .hashing _ => 6
  | .sending _ => 5
  | .recv => 2
  | .deferred => 1
  | .done => 0

/-- Steps the completion watcher has still to take. -/
def WatcherPc.rank : WatcherPc → Nat
  | .idle => 3
  | .waiting => 2
  | .closing => 1
  | .done => 0

/-- A bound on the number of steps the program can still take from a state. -/
def State.measure (c : Config) (s : State) : Nat :=
  s.main.rank c + 5 * s.walker.rank c + (s.workers.map WorkerPc.rank).sum + s.watcher.rank

/-! ## A concrete run

The scenario of the specification: `a.txt` holds "hello" and `b/c.txt` is empty; added to it
are a file that cannot be opened and a directory that cannot be read, which ends the walk
before `z.txt`. -/

/-- The file system of the scenario. -/
def demoFS : FS := fun path =>
  if path = "testdata/a.txt" then .readable [bytesOf "hello"] none
  else if path = "testdata/b/c.txt" then .readable [] none
  else if path = "testdata/locked" then .openFails "open testdata/locked: permission denied"
  else .openFails "no such file or directory"

/-- The scenario, with two workers. -/
def demo : Config :=
  { workerCount := 2
    entries := [⟨"./testdata", true, none⟩, ⟨"testdata/a.txt", false, none⟩,
      ⟨"testdata/b", true, none⟩, ⟨"testdata/b/c.txt", false, none⟩,
      ⟨"testdata/locked", false, none⟩,
      ⟨"testdata/private", true, some "open testdata/private: permission denied"⟩,
      ⟨"testdata/z.txt", false, none⟩]
    fs := demoFS }

/-- A schedule of the scenario in which results arrive out of dispatch order. -/
def demoSchedule : List Action :=
  [.main, .main, .main, .main, .main,
   .walker, .walker, .jobs 0, .walker, .walker, .jobs 1, .worker 1, .results 1, .main,
   .walker, .jobs 1, .worker 0, .worker 1, .results 1, .main, .results 0, .main,
   .walker, .walker, .worker 0, .worker 1, .worker 0, .worker 1,
   .watcher, .watcher, .main]

/-- The result for `a.txt`. -/
def demoA : FileResult :=
  { Path := "testdata/a.txt"
    Hash := "2cf24dba5fb0a30e26e83b2ac5b9e29e1b161e5c1fa7425e73043362938b9824"
    Err := none }

/-- The result for `b/c.txt`. -/
def demoC : FileResult :=
  { Path := "testdata/b/c.txt"
    Hash := "e3b0c44298fc1c149afbf4c8996fb92427ae41e4649b934ca495991b7852b855"
    Err := none }

/-- The result for the file that cannot be opened. -/
def demoLocked : FileResult :=
  { Path := "testdata/locked", Hash := ""
    Err := some "open testdata/locked: permission denied" }

/-- The state `demoSchedule` ends in. -/
def demoFinal : State :=
  { main := .exited, walker := .done, workers := [.done, .done], watcher := .done, wg := 0,
    jobsCloses := 1, resultsCloses := 1, panicked := false,
    stdout := [.hashing "testdata/a.txt", .hashing "testdata/b/c.txt", .result demoC,
      .hashing "testdata/locked", .result demoLocked, .result demoA]
    sent := ["testdata/a.txt", "testdata/b/c.txt", "testdata/locked"]
    received := [demoC, demoLocked, demoA] }

/-- A second schedule of the scenario, serving the jobs in dispatch order on worker 0. -/
def demoSchedule2 : List Action :=
  [.main, .main, .main, .main, .main,
   .walker, .walker, .jobs 0, .worker 0, .results 0, .main,
   .walker, .walker, .jobs 0, .worker 0, .results 0, .main,
   .walker, .jobs 0, .worker 0, .results 0, .main,
   .walker, .walker, .worker 0, .worker 1, .worker 0, .worker 1,
   .watcher, .watcher, .main]

/-- The state `demoSchedule2` ends in. -/
def demoFinal2 : State :=
  { main := .exited, walker := .done, workers := [.done, .done], watcher := .done, wg := 0,
    jobsCloses := 1, resultsCloses := 1, panicked := false,
    stdout := [.hashing "testdata/a.txt", .result demoA, .hashing "testdata/b/c.txt",
      .result demoC, .hashing "testdata/locked", .result demoLocked]
    sent := ["testdata/a.txt", "testdata/b/c.txt", "testdata/locked"]
    received := [demoA, demoC, demoLocked] }

/-- The scenario without the unreadable directory and what follows it: a walk that ends
normally, after its last entry. -/
def demoPlain : Config :=
  { workerCount := 2
    entries := [⟨"./testdata", true, none⟩, ⟨"testdata/a.txt", false, none⟩,
      ⟨"testdata/b", true, none⟩, ⟨"testdata/b/c.txt", false, none⟩]
    fs := demoFS }

/-- A schedule of `demoPlain` in which both workers hold a job at the same time. -/
def demoSchedulePlain : List Action :=
  [.main, .main, .main, .main, .main,
   .walker, .walker, .jobs 0, .walker, .walker, .jobs 1, .worker 0, .worker 1,
   .results 1, .main, .results 0, .main,
   .walker, .walker, .worker 0, .worker 1, .worker 0, .worker 1,
   .watcher, .watcher, .main]

/-- The state `demoSchedulePlain` ends in. -/
def demoFinalPlain : State :=
  { main := .exited, walker := .done, workers := [.done, .done], watcher := .done, wg := 0,
    jobsCloses := 1, resultsCloses := 1, panicked := false,
    stdout := [.hashing "testdata/a.txt", .hashing "testdata/b/c.txt", .result demoC,
      .result demoA]
    sent := ["testdata/a.txt", "testdata/b/c.txt"]
    received := [demoC, demoA] }

/-- The scenario with a single worker. -/
def demoOne : Config := { demo with workerCount := 1 }

/-- The schedule of the single worker, which can only serve the jobs one after the other. -/
def demoScheduleOne : List Action :=
  [.main, .main, .main, .main,
   .walker, .walker, .jobs 0, .worker 0, .results 0, .main,
   .walker, .walker, .jobs 0, .worker 0, .results 0, .main,
   .walker, .jobs 0, .worker 0, .results 0, .main,
   .walker, .walker, .worker 0, .worker 0, .watcher, .watcher, .main]

/-- The state `demoScheduleOne` ends in. -/
def demoFinalOne : State := { demoFinal2 with workers := [.done] }

/-- The two outcomes a `FileResult` may record: a digest and no error, or an error and no
digest. -/
def FileResult.ExactlyOne (res : FileResult) : Prop :=
  (res.Err = none ∧ res.Hash ≠ "") ∨ (res.Err ≠ none ∧ res.Hash = "")

/-! # Theorems -/

/-! ## The hash -/

namespace sha256

theorem absorb_fuel (n m : Nat) : ∀ (h : Regs) (p : List UInt8),
    p.length / 64 ≤ n → p.length / 64 ≤ m → absorb n h p = absorb m h p := by
  induction n generalizing m with
  | zero =>
    intro h p hn _
    have hp : p.length < 64 := by omega
    cases m with
    | zero => rfl
    | succ m => simp [absorb, hp]
  | succ n ih =>
    intro h p hn hm
    cases m with
    | zero =>
      have hp : p.length < 64 := by omega
      simp [absorb, hp]
    | succ m =>
      simp only [absorb]
      split
      · rfl
      · apply ih
        · simp only [List.length_drop]; omega
        · simp only [List.length_drop]; omega

theorem absorb_append (n : Nat) : ∀ (h : Regs) (p q : List UInt8), p.length / 64 ≤ n →
    absorb (p ++ q).length h (p ++ q)
      = absorb ((absorb n h p).2 ++ q).length (absorb n h p).1 ((absorb n h p).2 ++ q) := by
  induction n with
  | zero =>
    intro h p q hn
    simp [absorb]
  | succ n ih =>
    intro h p q hn
    simp only [absorb]
    split
    · rfl
    · rename_i hp
      have hp64 : 64 ≤ p.length := by omega
      rw [← ih (block h (p.take 64)) (p.drop 64) q (by simp only [List.length_drop]; omega)]
      have hlen : (p ++ q).length = (p.drop 64 ++ q).length + 1 + 63 := by
        simp only [List.length_append, List.length_drop]; omega
      rw [absorb_fuel (p ++ q).length ((p.drop 64 ++ q).length + 1) h (p ++ q) (Nat.div_le_self _ _)
        (by rw [hlen]; omega)]
      simp only [absorb]
      have hnot : ¬ (p ++ q).length < 64 := by simp only [List.length_append]; omega
      rw [if_neg hnot, List.take_append_of_le_length hp64, List.drop_append_of_le_length hp64]

/-- What a digest holds after the bytes `data` have been written to a fresh one. -/
theorem written_foldl (chunks : List (List UInt8)) :
    ∀ (d : digest) (data : List UInt8),
      (d.h, d.x) = absorb data.length init data → d.len = data.length % 18446744073709551616 →
      ((chunks.foldl digest.Write d).h, (chunks.foldl digest.Write d).x)
          = absorb (data ++ chunks.flatten).length init (data ++ chunks.flatten)
        ∧ (chunks.foldl digest.Write d).len
          = (data ++ chunks.flatten).length % 18446744073709551616 := by
  induction chunks with
  | nil => intro d data h1 h2; simpa using ⟨h1, h2⟩
  | cons c cs ih =>
    intro d data h1 h2
    have key := ih (d.Write c) (data ++ c) ?_ ?_
    · simpa [List.append_assoc] using key
    · rw [absorb_append data.length init data c (Nat.div_le_self _ _), ← h1]
      rfl
    · simp only [digest.Write, h2, List.length_append]
      omega

theorem padding_mod (n : Nat) : padding (n % 18446744073709551616) = padding n := by
  have h1 : n % 18446744073709551616 % 64 = n % 64 := by omega
  have h2 : n % 18446744073709551616 * 8 % 18446744073709551616 = n * 8 % 18446744073709551616 := by
    omega
  simp only [padding, h1, h2]

/-- Streaming a message through a digest in any chunks gives the SHA-256 of the whole. -/
theorem sum_foldl_write (chunks : List (List UInt8)) :
    (chunks.foldl digest.Write New).Sum = sum256 chunks.flatten := by
  obtain ⟨h1, h2⟩ := written_foldl chunks New [] (by simp [New, absorb]) (by simp [New])
  simp only [List.nil_append] at h1 h2
  simp only [digest.Sum, sum256, digest.Write]
  rw [h2, padding_mod]
  have e1 : (chunks.foldl digest.Write New).h
      = (absorb chunks.flatten.length init chunks.flatten).1 := congrArg Prod.fst h1
  have e2 : (chunks.foldl digest.Write New).x
      = (absorb chunks.flatten.length init chunks.flatten).2 := congrArg Prod.snd h1
  rw [e1, e2, ← absorb_append chunks.flatten.length init chunks.flatten _ (Nat.div_le_self _ _)]

theorem absorb_rest_length (n : Nat) : ∀ (h : Regs) (p : List UInt8), p.length / 64 ≤ n →
    (absorb n h p).2.length = p.length % 64 := by
  induction n with
  | zero =>
    intro h p hn
    simp only [absorb]
    omega
  | succ n ih =>
    intro h p hn
    simp only [absorb]
    split
    · show p.length = p.length % 64
      omega
    · rw [ih _ _ (by simp only [List.length_drop]; omega)]
      simp only [List.length_drop]
      omega

theorem padding_length (len : Nat) : (len + (padding len).length) % 64 = 0 := by
  simp only [padding, be64, be32, List.length_cons, List.length_append, List.length_replicate,
    List.length_nil]
  split <;> omega

/-- The check `d.nx != 0` in `checkSum` never fires: after the padding is written no partial
block is left in the buffer. -/
theorem sum_buffer_drained (chunks : List (List UInt8)) :
    ((chunks.foldl digest.Write New).Write (padding (chunks.foldl digest.Write New).len)).x
      = [] := by
  obtain ⟨h1, h2⟩ := written_foldl chunks New [] (by simp [New, absorb]) (by simp [New])
  simp only [List.nil_append] at h1 h2
  have e2 : (chunks.foldl digest.Write New).x
      = (absorb chunks.flatten.length init chunks.flatten).2 := congrArg Prod.snd h1
  have hx := absorb_rest_length chunks.flatten.length init chunks.flatten (Nat.div_le_self _ _)
  rw [← e2] at hx
  rw [h2, padding_mod]
  apply List.eq_nil_of_length_eq_zero
  simp only [digest.Write]
  rw [absorb_rest_length _ _ _ (Nat.div_le_self _ _), List.length_append, hx]
  have := padding_length chunks.flatten.length
  omega

theorem be32_length (x : Nat) : (be32 x).length = 4 := rfl

theorem bytes_length (r : Regs) : r.bytes.length = 32 := by
  simp [Regs.bytes, be32_length]

theorem sum256_length (msg : List UInt8) : (sum256 msg).length = 32 := by
  simp [sum256, bytes_length]

end sha256

theorem ioCopy_eq (chunks : List (List UInt8)) : ∀ (h : sha256.digest) (e : Option Error),
    ioCopy h chunks e = (chunks.foldl sha256.digest.Write h, e) := by
  induction chunks with
  | nil => intro h e; rfl
  | cons c cs ih => intro h e; simp [ioCopy, ih]

/-- The characters `fmt.Sprintf("%x", ...)` can produce. -/
theorem hexDigit_mem (n : Nat) (h : n < 16) : hexDigit n ∈ "0123456789abcdef".toList := by
  interval_cases n <;> decide

theorem sprintfHex_length (b : List UInt8) : (sprintfHex b).length = 2 * b.length := by
  simp only [sprintfHex, String.length]
  induction b with
  | nil => rfl
  | cons x xs ih => simp only [List.flatMap_cons, List.length_append, ih, List.length_cons]; simp; omega

theorem sprintfHex_chars (b : List UInt8) :
    ∀ ch ∈ (sprintfHex b).toList, ch ∈ "0123456789abcdef".toList := by
  intro ch hch
  simp only [sprintfHex, String.toList, List.mem_flatMap] at hch
  obtain ⟨x, _, hx⟩ := hch
  have hlt : x.toNat < 256 := x.val.isLt
  simp only [List.mem_cons, List.mem_singleton, List.not_mem_nil, or_false] at hx
  rcases hx with rfl | rfl
  · exact hexDigit_mem _ (by omega)
  · exact hexDigit_mem _ (Nat.mod_lt _ (by decide))

theorem hashFile_readable (fs : FS) (path : String) (chunks : List (List UInt8))
    (h : fs path = .readable chunks none) :
    hashFile fs path = (sprintfHex (sha256.sum256 chunks.flatten), none) := by
  simp only [hashFile, h, ioCopy_eq, sha256.sum_foldl_write]

theorem hashFile_readErr (fs : FS) (path : String) (chunks : List (List UInt8)) (err : Error)
    (h : fs path = .readable chunks (some err)) : hashFile fs path = ("", some err) := by
  simp only [hashFile, h, ioCopy_eq]

theorem hashFile_openFails (fs : FS) (path : String) (err : Error)
    (h : fs path = .openFails err) : hashFile fs path = ("", some err) := by
  simp only [hashFile, h]

/-! ## List facts used by the invariant -/

theorem set_split {α : Type} (l : List α) (i : Nat) (x old : α) (h : l[i]? = some old) :
    ∃ l1 l2, l = l1 ++ old :: l2 ∧ l.set i x = l1 ++ x :: l2 := by
  induction l generalizing i with
  | nil => simp at h
  | cons a l ih =>
    cases i with
    | zero =>
      simp at h
      exact ⟨[], l, by simp [h], by simp⟩
    | succ i =>
      simp at h
      obtain ⟨l1, l2, h1, h2⟩ := ih i h
      exact ⟨a :: l1, l2, by simp [h1], by simp [h2]⟩

theorem snoc_split {α : Type} (out pre post : List α) (x y : α)
    (e : out ++ [x] = pre ++ y :: post) :
    (post = [] ∧ out = pre ∧ x = y) ∨ ∃ post1, post = post1 ++ [x] ∧ out = pre ++ y :: post1 := by
  rcases List.eq_nil_or_concat post with rfl | ⟨post1, b, rfl⟩
  · left
    have h := List.append_inj' e rfl
    simpa using h
  · right
    have e2 : out ++ [x] = (pre ++ y :: post1) ++ [b] := by simpa using e
    have h := List.append_inj' e2 rfl
    simp at h
    exact ⟨post1, by rw [h.2, List.concat_eq_append], h.1⟩

theorem workerBody_path (fs : FS) (path : String) : (workerBody fs path).Path = path := rfl

theorem ordered_nil : Ordered [] := by
  intro pre res post h
  simp at h

theorem ordered_hashing (out : List Out) (path : String) (h : Ordered out) :
    Ordered (out ++ [.hashing path]) := by
  intro pre res post e
  rcases snoc_split _ _ _ _ _ e with ⟨_, _, h3⟩ | ⟨post1, _, h2⟩
  · cases h3
  · exact h pre res post1 h2

theorem ordered_result (out : List Out) (res : FileResult) (h : Ordered out)
    (hlt : resultsFor res.Path out < hashingsFor res.Path out) :
    Ordered (out ++ [.result res]) := by
  intro pre r post e
  rcases snoc_split _ _ _ _ _ e with ⟨_, h2, h3⟩ | ⟨post1, _, h2⟩
  · cases h3
    subst h2
    exact hlt
  · exact h pre r post1 h2

/-! ## The invariant holds in every reachable state -/

theorem inv_init (c : Config) : Inv c State.init :=
  { noPanic := rfl
    phase := by simp [PhaseOk, State.init]
    wgCount := rfl
    jobs := rfl
    results := rfl
    watcherLate := by simp [State.init]
    returning := by simp [State.init]
    walked := rfl
    conserved := by simp [State.init]
    hashLines := rfl
    resultLines := rfl
    ordered := ordered_nil }

theorem results_lt_hashings (c : Config) (s : State) (hI : Inv c s) (res : FileResult)
    (hm : s.main = .printing res) :
    resultsFor res.Path s.stdout < hashingsFor res.Path s.stdout := by
  have h1 := hI.resultLines
  have h2 := hI.conserved
  have h3 := hI.hashLines
  rw [hm] at h1
  simp only [MainPc.unprinted] at h1
  simp only [resultsFor, hashingsFor, h3, List.count_append]
  have h4 := h2.countP_eq (fun r => decide (r.Path = res.Path))
  rw [← h1] at h4
  simp only [List.countP_append, List.countP_cons, List.countP_nil, decide_True,
    if_true] at h4
  have h5 : List.countP (fun r => decide (r.Path = res.Path)) (s.sent.map (workerBody c.fs))
      = s.sent.count res.Path := by
    rw [List.countP_map, List.count]
    apply List.countP_congr
    intro x _
    simp only [Function.comp, workerBody_path, decide_eq_true_eq, beq_iff_eq]
  omega

theorem mainStep_inv (c : Config) (s t : State) (hI : Inv c s) (h : mainStep c s = some t) :
    Inv c t := by
  have hlt := results_lt_hashings c s hI
  obtain ⟨h1, h2, h3, h4, h5, h6, h7, h8, h9, h10, h11, h12⟩ := hI
  unfold mainStep at h
  split at h
  · rename_i i hm
    simp only [PhaseOk, hm] at h2
    obtain ⟨p1, p2, p3, p4⟩ := h2
    rw [hm] at h11
    split at h
    · rename_i hi
      cases h
      exact
        { noPanic := h1
          phase := by
            simp only [PhaseOk, List.length_append, List.length_singleton]
            exact ⟨by omega, by omega, p3, p4⟩
          wgCount := by simp [List.countP_append, WorkerPc.live, h3]
          jobs := h4
          results := h5
          watcherLate := by intro hw; rw [p4] at hw; simp at hw
          returning := by
            intro w hw
            rcases List.mem_append.mp hw with hw | hw
            · exact h7 w hw
            · simp at hw; subst hw; intro hl; cases hl
          walked := h8
          conserved := by simpa [List.flatMap_append, WorkerPc.inflight] using h9
          hashLines := h10
          resultLines := h11
          ordered := h12 }
    · rename_i hi
      cases h
      exact
        { noPanic := h1
          phase := by simp only [PhaseOk]; exact ⟨by omega, p3, p4⟩
          wgCount := h3, jobs := h4, results := h5, watcherLate := h6, returning := h7
          walked := h8, conserved := h9, hashLines := h10, resultLines := h11, ordered := h12 }
  · rename_i hm
    simp only [PhaseOk, hm] at h2
    obtain ⟨p2, p3, p4⟩ := h2
    rw [hm] at h11
    rw [p3] at h4 h8 h10
    cases h
    exact
      { noPanic := h1
        phase := by simp only [PhaseOk]; exact ⟨p2, by simp, p4⟩
        wgCount := h3
        jobs := by simpa using h4
        results := h5
        watcherLate := h6
        returning := by
          intro w hw hl
          have := h7 w hw hl
          rw [p3] at this
          cases this
        walked := h8
        conserved := h9
        hashLines := h10
        resultLines := h11
        ordered := h12 }
  · rename_i hm
    simp only [PhaseOk, hm] at h2
    obtain ⟨p2, p3, p4⟩ := h2
    rw [hm] at h11
    rw [p4] at h5
    cases h
    exact
      { noPanic := h1
        phase := by simp only [PhaseOk]; exact ⟨p2, p3, by simp⟩
        wgCount := h3
        jobs := h4
        results := by simpa using h5
        watcherLate := by simp
        returning := h7
        walked := h8
        conserved := h9
        hashLines := h10
        resultLines := h11
        ordered := h12 }
  · rename_i hm
    simp only [PhaseOk, hm] at h2
    obtain ⟨p2, p3, p4⟩ := h2
    rw [hm] at h11
    split at h
    · rename_i hc
      cases h
      have hw : s.watcher = .done := by
        by_contra hne
        rw [if_neg hne] at h5
        omega
      exact
        { noPanic := h1
          phase := by simp only [PhaseOk]; exact ⟨p2, p3, hw⟩
          wgCount := h3, jobs := h4, results := h5, watcherLate := h6, returning := h7
          walked := h8, conserved := h9, hashLines := h10, resultLines := h11, ordered := h12 }
    · cases h
  · rename_i res hm
    have hlt2 := hlt res hm
    simp only [PhaseOk, hm] at h2
    rw [hm] at h11
    cases h
    exact
      { noPanic := h1
        phase := by simp only [PhaseOk]; exact h2
        wgCount := h3, jobs := h4, results := h5, watcherLate := h6, returning := h7
        walked := h8, conserved := h9
        hashLines := by simpa [List.filterMap_append, Out.hashing?] using h10
        resultLines := by
          simpa [List.filterMap_append, Out.result?, MainPc.unprinted] using h11
        ordered := ordered_result _ _ h12 hlt2 }
  · cases h

theorem walk_cons_err (e : WalkEntry) (rest : List WalkEntry) (o : Option String) (err : Error)
    (h : walkFn e = (o, some err)) : walk (e :: rest) = [] := by
  simp only [walk, h]

theorem walk_cons_file (e : WalkEntry) (rest : List WalkEntry) (path : String)
    (h : walkFn e = (some path, none)) : walk (e :: rest) = path :: walk rest := by
  simp only [walk, h]

theorem walk_cons_dir (e : WalkEntry) (rest : List WalkEntry)
    (h : walkFn e = (none, none)) : walk (e :: rest) = walk rest := by
  simp only [walk, h]

theorem walkerStep_inv (c : Config) (s t : State) (hI : Inv c s) (h : walkerStep s = some t) :
    Inv c t := by
  obtain ⟨h1, h2, h3, h4, h5, h6, h7, h8, h9, h10, h11, h12⟩ := hI
  have hphase : ∀ (wk : WalkerPc), wk ≠ .idle → s.walker ≠ .idle →
      PhaseOk c { s with walker := wk } := by
    intro wk hwk hs
    unfold PhaseOk at h2 ⊢
    revert h2
    cases s.main <;> simp_all
  have hnotleft : s.walker ≠ .done → ∀ w ∈ s.workers, w.left = true → False := by
    intro hne w hw hl
    exact hne (h7 w hw hl)
  unfold walkerStep at h
  split at h
  · cases h
  · rename_i hw
    cases h
    rw [hw] at h4 h8 h10
    exact
      { noPanic := h1
        phase := hphase _ (by simp) (by simp [hw])
        wgCount := h3
        jobs := by simpa using h4
        results := h5
        watcherLate := h6
        returning := fun w hm hl => (hnotleft (by simp [hw]) w hm hl).elim
        walked := by simpa [WalkerPc.pending, walk] using h8
        conserved := h9
        hashLines := by simpa [WalkerPc.announced] using h10
        resultLines := h11
        ordered := h12 }
  · rename_i e rest hw
    rw [hw] at h4 h8 h10
    split at h
    · rename_i o err hf
      cases h
      exact
        { noPanic := h1
          phase := hphase _ (by simp) (by simp [hw])
          wgCount := h3
          jobs := by simpa using h4
          results := h5
          watcherLate := h6
          returning := fun w hm hl => (hnotleft (by simp [hw]) w hm hl).elim
          walked := by simpa [WalkerPc.pending, walk_cons_err e rest o err hf] using h8
          conserved := h9
          hashLines := by simpa [WalkerPc.announced] using h10
          resultLines := h11
          ordered := h12 }
    · rename_i path hf
      cases h
      exact
        { noPanic := h1
          phase := hphase _ (by simp) (by simp [hw])
          wgCount := h3
          jobs := by simpa using h4
          results := h5
          watcherLate := h6
          returning := fun w hm hl => (hnotleft (by simp [hw]) w hm hl).elim
          walked := by simpa [WalkerPc.pending, walk_cons_file e rest path hf] using h8
          conserved := h9
          hashLines := by
            simpa [WalkerPc.announced, List.filterMap_append, Out.hashing?] using h10
          resultLines := by simpa [List.filterMap_append, Out.result?] using h11
          ordered := ordered_hashing _ _ h12 }
    · rename_i hf
      cases h
      exact
        { noPanic := h1
          phase := hphase _ (by simp) (by simp [hw])
          wgCount := h3
          jobs := by simpa using h4
          results := h5
          watcherLate := h6
          returning := fun w hm hl => (hnotleft (by simp [hw]) w hm hl).elim
          walked := by simpa [WalkerPc.pending, walk_cons_dir e rest hf] using h8
          conserved := h9
          hashLines := by simpa [WalkerPc.announced] using h10
          resultLines := h11
          ordered := h12 }
  · rename_i path rest hw
    rw [hw] at h4
    split at h
    · rename_i hc
      simp at h4
      omega
    · cases h
  · rename_i hw
    rw [hw] at h4 h8 h10
    simp at h4
    cases h
    exact
      { noPanic := by simp [h4]
        phase := hphase _ (by simp) (by simp [hw])
        wgCount := h3
        jobs := by simp [h4]
        results := h5
        watcherLate := h6
        returning := fun _ _ _ => rfl
        walked := by simpa [WalkerPc.pending] using h8
        conserved := h9
        hashLines := by simpa [WalkerPc.announced] using h10
        resultLines := h11
        ordered := h12 }
  · cases h

theorem mem_of_lookup {α : Type} (l : List α) (i : Nat) (a : α) (h : l[i]? = some a) : a ∈ l := by
  obtain ⟨l1, l2, e, _⟩ := set_split l i a a h
  rw [e]
  simp

theorem phase_congr (c : Config) (s t : State) (hm : t.main = s.main)
    (hl : t.workers.length = s.workers.length) (hwk : t.walker = .idle ↔ s.walker = .idle)
    (hwt : t.watcher = s.watcher) (h : PhaseOk c s) : PhaseOk c t := by
  unfold PhaseOk at h ⊢
  rw [hm, hl, hwt]
  revert h
  cases s.main <;> simp [hwk]

theorem phase_workers (c : Config) (s : State) (ws : List WorkerPc)
    (hl : ws.length = s.workers.length) (h : PhaseOk c s) :
    PhaseOk c { s with workers := ws } :=
  phase_congr c s _ rfl hl Iff.rfl rfl h

theorem jobsHandoff_inv (c : Config) (s t : State) (w : Nat) (hI : Inv c s)
    (h : jobsHandoff s w = some t) : Inv c t := by
  obtain ⟨h1, h2, h3, h4, h5, h6, h7, h8, h9, h10, h11, h12⟩ := hI
  unfold jobsHandoff at h
  split at h
  · rename_i path rest hw hg
    split at h
    · cases h
      obtain ⟨l1, l2, e1, e2⟩ := set_split s.workers w (.hashing path) _ hg
      rw [hw] at h4 h8 h10
      rw [e1] at h3 h7 h9
      exact
        { noPanic := h1
          phase := phase_congr c s _ rfl (by simp) (by simp [hw]) rfl h2
          wgCount := by
            show s.wg = List.countP WorkerPc.live (s.workers.set w (.hashing path))
            rw [e2, h3]
            simp [List.countP_append, List.countP_cons, WorkerPc.live]
          jobs := by simpa using h4
          results := h5
          watcherLate := h6
          returning := by
            intro x hx hl
            show WalkerPc.walking rest = WalkerPc.done
            have hx2 : x ∈ s.workers.set w (.hashing path) := hx
            rw [e2] at hx2
            have hx3 : x ∈ l1 ++ WorkerPc.recv :: l2 := by
              simp only [List.mem_append, List.mem_cons] at hx2 ⊢
              rcases hx2 with hx2 | hx2 | hx2
              · exact Or.inl hx2
              · subst hx2; cases hl
              · exact Or.inr (Or.inr hx2)
            have := h7 x hx3 hl
            rw [hw] at this
            cases this
          walked := by simpa [WalkerPc.pending] using h8
          conserved := by
            show ((s.sent ++ [path]).map (workerBody c.fs)).Perm
              (s.received ++ (s.workers.set w (.hashing path)).flatMap (WorkerPc.inflight c.fs))
            rw [e2]
            rw [List.perm_iff_count] at h9 ⊢
            intro a
            have := h9 a
            simp only [List.map_append, List.count_append, List.flatMap_append,
              List.flatMap_cons, WorkerPc.inflight, List.map_cons, List.map_nil,
              List.count_nil] at this ⊢
            omega
          hashLines := by simpa [WalkerPc.announced] using h10
          resultLines := h11
          ordered := h12 }
    · cases h
  · cases h

theorem workerStep_inv (c : Config) (s t : State) (w : Nat) (hI : Inv c s)
    (h : workerStep c s w = some t) : Inv c t := by
  obtain ⟨h1, h2, h3, h4, h5, h6, h7, h8, h9, h10, h11, h12⟩ := hI
  unfold workerStep at h
  split at h
  · cases h
  · rename_i hg
    split at h
    · rename_i hc
      cases h
      obtain ⟨l1, l2, e1, e2⟩ := set_split s.workers w .deferred _ hg
      have hd : s.walker = .done := by
        by_contra hne
        rw [if_neg hne] at h4
        omega
      exact
        { noPanic := h1
          phase := phase_workers c s _ (by simp) h2
          wgCount := by
            show s.wg = List.countP WorkerPc.live (s.workers.set w .deferred)
            rw [e2, h3, e1]
            simp [List.countP_append, List.countP_cons, WorkerPc.live]
          jobs := h4
          results := h5
          watcherLate := h6
          returning := fun _ _ _ => hd
          walked := h8
          conserved := by
            show (s.sent.map (workerBody c.fs)).Perm
              (s.received ++ (s.workers.set w .deferred).flatMap (WorkerPc.inflight c.fs))
            rw [e2]
            rw [e1] at h9
            simpa [List.flatMap_append, WorkerPc.inflight] using h9
          hashLines := h10
          resultLines := h11
          ordered := h12 }
    · cases h
  · rename_i path hg
    cases h
    obtain ⟨l1, l2, e1, e2⟩ := set_split s.workers w (.sending (workerBody c.fs path)) _ hg
    exact
      { noPanic := h1
        phase := phase_workers c s _ (by simp) h2
        wgCount := by
          show s.wg = List.countP WorkerPc.live (s.workers.set w _)
          rw [e2, h3, e1]
          simp [List.countP_append, List.countP_cons, WorkerPc.live]
        jobs := h4
        results := h5
        watcherLate := h6
        returning := by
          intro x hx hl
          have hx2 : x ∈ s.workers.set w (.sending (workerBody c.fs path)) := hx
          rw [e2] at hx2
          apply h7 x _ hl
          rw [e1]
          simp only [List.mem_append, List.mem_cons] at hx2 ⊢
          rcases hx2 with hx2 | hx2 | hx2
          · exact Or.inl hx2
          · subst hx2; cases hl
          · exact Or.inr (Or.inr hx2)
        walked := h8
        conserved := by
          show (s.sent.map (workerBody c.fs)).Perm
            (s.received ++ (s.workers.set w _).flatMap (WorkerPc.inflight c.fs))
          rw [e2]
          rw [e1] at h9
          simpa [List.flatMap_append, WorkerPc.inflight] using h9
        hashLines := h10
        resultLines := h11
        ordered := h12 }
  · rename_i res hg
    split at h
    · rename_i hc
      exfalso
      have hw : s.watcher = .done := by
        by_contra hne
        rw [if_neg hne] at h5
        omega
      have h0 := h6 (Or.inr hw)
      rw [h3] at h0
      have hmem : WorkerPc.sending res ∈ s.workers := mem_of_lookup _ _ _ hg
      have := List.countP_pos_iff.mpr ⟨_, hmem, (rfl : WorkerPc.live (.sending res) = true)⟩
      omega
    · cases h
  · rename_i hg
    obtain ⟨l1, l2, e1, e2⟩ := set_split s.workers w .done _ hg
    have hpos : 0 < s.wg := by
      rw [h3, e1]
      simp [List.countP_append, List.countP_cons, WorkerPc.live]
    split at h
    · omega
    · cases h
      have hd : s.walker = .done := h7 _ (mem_of_lookup _ _ _ hg) rfl
      exact
        { noPanic := h1
          phase := phase_workers c s _ (by simp) h2
          wgCount := by
            show s.wg - 1 = List.countP WorkerPc.live (s.workers.set w .done)
            rw [e2, h3, e1]
            simp [List.countP_append, List.countP_cons, WorkerPc.live]
          jobs := h4
          results := h5
          watcherLate := by
            intro hw
            have := h6 hw
            omega
          returning := fun _ _ _ => hd
          walked := h8
          conserved := by
            show (s.sent.map (workerBody c.fs)).Perm
              (s.received ++ (s.workers.set w .done).flatMap (WorkerPc.inflight c.fs))
            rw [e2]
            rw [e1] at h9
            simpa [List.flatMap_append, WorkerPc.inflight] using h9
          hashLines := h10
          resultLines := h11
          ordered := h12 }
  · cases h

theorem resultsHandoff_inv (c : Config) (s t : State) (w : Nat) (hI : Inv c s)
    (h : resultsHandoff s w = some t) : Inv c t := by
  obtain ⟨h1, h2, h3, h4, h5, h6, h7, h8, h9, h10, h11, h12⟩ := hI
  unfold resultsHandoff at h
  split at h
  · rename_i res hm hg
    split at h
    · cases h
      obtain ⟨l1, l2, e1, e2⟩ := set_split s.workers w .recv _ hg
      rw [hm] at h11
      exact
        { noPanic := h1
          phase := by
            unfold PhaseOk at h2 ⊢
            rw [hm] at h2
            simpa using h2
          wgCount := by
            show s.wg = List.countP WorkerPc.live (s.workers.set w .recv)
            rw [e2, h3, e1]
            simp [List.countP_append, List.countP_cons, WorkerPc.live]
          jobs := h4
          results := h5
          watcherLate := h6
          returning := by
            intro x hx hl
            have hx2 : x ∈ s.workers.set w .recv := hx
            rw [e2] at hx2
            apply h7 x _ hl
            rw [e1]
            simp only [List.mem_append, List.mem_cons] at hx2 ⊢
            rcases hx2 with hx2 | hx2 | hx2
            · exact Or.inl hx2
            · subst hx2; cases hl
            · exact Or.inr (Or.inr hx2)
          walked := h8
          conserved := by
            show (s.sent.map (workerBody c.fs)).Perm
              ((s.received ++ [res]) ++ (s.workers.set w .recv).flatMap (WorkerPc.inflight c.fs))
            rw [e2]
            rw [e1] at h9
            rw [List.perm_iff_count] at h9 ⊢
            intro a
            have := h9 a
            simp only [List.count_append, List.flatMap_append, List.flatMap_cons,
              WorkerPc.inflight, List.count_nil] at this ⊢
            omega
          hashLines := h10
          resultLines := by
            show List.filterMap Out.result? s.stdout ++ [res] = s.received ++ [res]
            simpa [MainPc.unprinted] using h11
          ordered := h12 }
    · cases h
  · cases h

theorem watcherStep_inv (c : Config) (s t : State) (hI : Inv c s)
    (h : watcherStep s = some t) : Inv c t := by
  obtain ⟨h1, h2, h3, h4, h5, h6, h7, h8, h9, h10, h11, h12⟩ := hI
  unfold watcherStep at h
  split at h
  · cases h
  · rename_i hw
    split at h
    · rename_i h0
      cases h
      rw [hw] at h5
      exact
        { noPanic := h1
          phase := by
            unfold PhaseOk at h2 ⊢
            revert h2
            show (match s.main with
              | .spawn i => _ | .goWalk => _ | .goWatch => _ | .consume => _
              | .printing _ => _ | .exited => _) → _
            cases s.main <;> simp [hw]
          wgCount := h3
          jobs := h4
          results := by simpa using h5
          watcherLate := fun _ => h0
          returning := h7
          walked := h8
          conserved := h9
          hashLines := h10
          resultLines := h11
          ordered := h12 }
    · cases h
  · rename_i hw
    cases h
    rw [hw] at h5
    simp at h5
    exact
      { noPanic := by simp [h5]
        phase := by
          unfold PhaseOk at h2 ⊢
          revert h2
          cases s.main <;> simp [hw]
        wgCount := h3
        jobs := h4
        results := by simp [h5]
        watcherLate := fun _ => h6 (Or.inl hw)
        returning := h7
        walked := h8
        conserved := h9
        hashLines := h10
        resultLines := h11
        ordered := h12 }
  · cases h

theorem step_inv (c : Config) (s t : State) (a : Action) (hI : Inv c s)
    (h : step c s a = some t) : Inv c t := by
  unfold step at h
  split at h
  · cases h
  · cases a with
    | main => exact mainStep_inv c s t hI h
    | walker => exact walkerStep_inv c s t hI h
    | jobs w => exact jobsHandoff_inv c s t w hI h
    | worker w => exact workerStep_inv c s t w hI h
    | results w => exact resultsHandoff_inv c s t w hI h
    | watcher => exact watcherStep_inv c s t hI h

theorem run_inv (c : Config) (sched : List Action) : ∀ (s t : State), Inv c s →
    run c s sched = some t → Inv c t := by
  induction sched with
  | nil => intro s t hI h; simp only [run] at h; cases h; exact hI
  | cons a rest ih =>
    intro s t hI h
    simp only [run] at h
    split at h
    · cases h
    · rename_i u hu
      exact ih u t (step_inv c s u a hI hu) h

theorem reachable_inv (c : Config) (s : State) (h : Reachable c s) : Inv c s := by
  obtain ⟨sched, hs⟩ := h
  exact run_inv c sched _ _ (inv_init c) hs

/-! ## The final state and progress -/

theorem all_done_of_wg (c : Config) (s : State) (hI : Inv c s) (h0 : s.wg = 0) :
    ∀ w ∈ s.workers, w = .done := by
  intro w hw
  have h := hI.wgCount
  rw [h0] at h
  have := List.countP_eq_zero.mp h.symm w hw
  cases w <;> simp [WorkerPc.live] at this ⊢

theorem inflight_nil_of_done (fs : FS) (ws : List WorkerPc) (h : ∀ w ∈ ws, w = .done) :
    ws.flatMap (WorkerPc.inflight fs) = [] := by
  rw [List.flatMap_eq_nil_iff]
  intro w hw
  rw [h w hw]
  rfl

/-- What holds once `main` has returned. -/
theorem final_facts (c : Config) (s : State) (hn : 0 < c.workerCount) (hI : Inv c s)
    (hm : s.main = .exited) :
    s.walker = .done ∧ s.watcher = .done ∧ s.workers = List.replicate c.workerCount .done
      ∧ s.jobsCloses = 1 ∧ s.resultsCloses = 1 ∧ s.sent = walk c.entries
      ∧ (s.sent.map (workerBody c.fs)).Perm s.received
      ∧ s.stdout.filterMap Out.result? = s.received
      ∧ s.stdout.filterMap Out.hashing? = s.sent := by
  have hp := hI.phase
  unfold PhaseOk at hp
  rw [hm] at hp
  obtain ⟨hlen, _, hwt⟩ := hp
  have h0 : s.wg = 0 := hI.watcherLate (Or.inr hwt)
  have hall := all_done_of_wg c s hI h0
  obtain ⟨w, hw⟩ := List.exists_mem_of_length_pos (by omega : 0 < s.workers.length)
  have hwk : s.walker = .done := hI.returning w hw (by rw [hall w hw]; rfl)
  have h4 := hI.jobs
  have h5 := hI.results
  have h8 := hI.walked
  have h9 := hI.conserved
  have h10 := hI.hashLines
  have h11 := hI.resultLines
  rw [hwk] at h4 h8 h10
  rw [hwt] at h5
  rw [hm] at h11
  rw [inflight_nil_of_done c.fs s.workers hall] at h9
  refine ⟨hwk, hwt, ?_, by simpa using h4, by simpa using h5, ?_, ?_, ?_, ?_⟩
  · rw [List.eq_replicate_iff]
    exact ⟨hlen, hall⟩
  · simpa [WalkerPc.pending] using h8
  · simpa using h9
  · simpa [MainPc.unprinted] using h11
  · simpa [WalkerPc.announced] using h10

theorem workers_cases (ws : List WorkerPc) :
    (∃ (i : Nat) (w : WorkerPc), ws[i]? = some w ∧ w ≠ .recv ∧ w ≠ .done)
      ∨ (∃ i : Nat, ws[i]? = some WorkerPc.recv)
      ∨ ∀ w ∈ ws, w = .done := by
  by_cases h1 : ∃ w ∈ ws, w ≠ .recv ∧ w ≠ .done
  · obtain ⟨w, hw, h⟩ := h1
    obtain ⟨i, hi⟩ := List.getElem?_of_mem hw
    exact Or.inl ⟨i, w, hi, h⟩
  · by_cases h2 : WorkerPc.recv ∈ ws
    · exact Or.inr (Or.inl (List.getElem?_of_mem h2))
    · refine Or.inr (Or.inr ?_)
      intro w hw
      by_contra hne
      apply h1
      refine ⟨w, hw, ?_, hne⟩
      intro he
      exact h2 (he ▸ hw)

theorem step_of_guard (c : Config) (s : State) (a : Action) (hp : s.panicked = false)
    (hm : s.main ≠ .exited) :
    step c s a = match a with
      | .main => mainStep c s
      | .walker => walkerStep s
      | .jobs w => jobsHandoff s w
      | .worker w => workerStep c s w
      | .results w => resultsHandoff s w
      | .watcher => watcherStep s := by
  unfold step
  rw [if_neg]
  simp [hp, hm]

/-- In a state satisfying the invariant, if `main` has not returned then some action is
enabled. -/
theorem progress (c : Config) (s : State) (hn : 0 < c.workerCount) (hI : Inv c s)
    (hm : s.main ≠ .exited) : ∃ a t, step c s a = some t := by
  have hg := fun a => step_of_guard c s a hI.noPanic hm
  have hp := hI.phase
  unfold PhaseOk at hp
  have hmain : ∀ t, mainStep c s = some t → ∃ a t, step c s a = some t :=
    fun t ht => ⟨.main, t, by rw [hg]; exact ht⟩
  have hworker : ∀ w t, workerStep c s w = some t → ∃ a t, step c s a = some t :=
    fun w t ht => ⟨.worker w, t, by rw [hg]; exact ht⟩
  have hwalker : ∀ t, walkerStep s = some t → ∃ a t, step c s a = some t :=
    fun t ht => ⟨.walker, t, by rw [hg]; exact ht⟩
  have hwatcher : ∀ t, watcherStep s = some t → ∃ a t, step c s a = some t :=
    fun t ht => ⟨.watcher, t, by rw [hg]; exact ht⟩
  cases hmc : s.main with
  | spawn i =>
    by_cases hi : i < c.workerCount
    · exact hmain _ (by simp only [mainStep, hmc, if_pos hi]; rfl)
    · exact hmain _ (by simp only [mainStep, hmc, if_neg hi]; rfl)
  | goWalk => exact hmain _ (by simp only [mainStep, hmc]; rfl)
  | goWatch => exact hmain _ (by simp only [mainStep, hmc]; rfl)
  | printing res => exact hmain _ (by simp only [mainStep, hmc]; rfl)
  | exited => exact absurd hmc hm
  | consume =>
    rw [hmc] at hp
    obtain ⟨hlen, hwk, hwt⟩ := hp
    have hlive : ∀ w ∈ s.workers, w.live = true → 0 < s.wg := by
      intro w hw hl
      rw [hI.wgCount]
      exact List.countP_pos_iff.mpr ⟨w, hw, hl⟩
    have hopen : ∀ w ∈ s.workers, w.live = true → s.resultsCloses = 0 := by
      intro w hw hl
      have h5 := hI.results
      by_cases hd : s.watcher = .done
      · have := hI.watcherLate (Or.inr hd)
        have := hlive w hw hl
        omega
      · rw [if_neg hd] at h5
        exact h5
    rcases workers_cases s.workers with ⟨i, w, hi, h1, h2⟩ | ⟨i, hi⟩ | hall
    · have hw := mem_of_lookup _ _ _ hi
      cases w with
      | recv => exact absurd rfl h1
      | done => exact absurd rfl h2
      | hashing path => exact hworker i _ (by simp only [workerStep, hi]; rfl)
      | sending res =>
        have h0 := hopen _ hw rfl
        exact ⟨.results i, _, by rw [hg]; simp only [resultsHandoff, hmc, hi, if_pos h0]; rfl⟩
      | deferred =>
        have hpos := hlive _ hw rfl
        exact hworker i _ (by simp only [workerStep, hi, if_neg (by omega : ¬ s.wg = 0)]; rfl)
    · cases hwc : s.walker with
      | idle => exact absurd hwc hwk
      | walking rest =>
        cases rest with
        | nil => exact hwalker _ (by simp only [walkerStep, hwc]; rfl)
        | cons e rest =>
          rcases hf : walkFn e with ⟨o, _ | err⟩
          · cases o with
            | none => exact hwalker _ (by simp only [walkerStep, hwc, hf]; rfl)
            | some path => exact hwalker _ (by simp only [walkerStep, hwc, hf]; rfl)
          · exact hwalker _ (by simp only [walkerStep, hwc, hf]; rfl)
      | sending path rest =>
        have h4 := hI.jobs
        rw [hwc] at h4
        simp at h4
        exact ⟨.jobs i, _, by rw [hg]; simp only [jobsHandoff, hwc, hi, if_pos h4]; rfl⟩
      | closing => exact hwalker _ (by simp only [walkerStep, hwc]; rfl)
      | done =>
        have h4 := hI.jobs
        rw [hwc] at h4
        simp at h4
        exact hworker i _ (by simp only [workerStep, hi, if_pos (by omega : 0 < s.jobsCloses)]; rfl)
    · obtain ⟨w, hw⟩ := List.exists_mem_of_length_pos (by omega : 0 < s.workers.length)
      have hwd : s.walker = .done := hI.returning w hw (by rw [hall w hw]; rfl)
      have h0 : s.wg = 0 := by
        rw [hI.wgCount, List.countP_eq_zero]
        intro x hx
        rw [hall x hx]
        simp [WorkerPc.live]
      cases hwc : s.watcher with
      | idle => exact absurd hwc hwt
      | waiting => exact hwatcher _ (by simp only [watcherStep, hwc, if_pos h0]; rfl)
      | closing => exact hwatcher _ (by simp only [watcherStep, hwc]; rfl)
      | done =>
        have h5 := hI.results
        rw [hwc] at h5
        simp at h5
        exact hmain _ (by simp only [mainStep, hmc, if_pos (by omega : 0 < s.resultsCloses)]; rfl)

/-! ## Termination -/

theorem step_measure (c : Config) (s t : State) (a : Action) (hI : Inv c s)
    (h : step c s a = some t) : t.measure c < s.measure c := by
  have hp := hI.phase
  unfold PhaseOk at hp
  unfold step at h
  split at h
  · cases h
  · cases a with
    | main =>
      simp only [mainStep] at h
      split at h
      · rename_i i hm
        rw [hm] at hp
        split at h
        · cases h
          simp only [State.measure, hm, MainPc.rank, List.map_append, List.sum_append,
            List.map_cons, List.map_nil, List.sum_cons, List.sum_nil, WorkerPc.rank]
          omega
        · cases h
          simp only [State.measure, hm, MainPc.rank]
          omega
      · rename_i hm
        rw [hm] at hp
        cases h
        simp only [State.measure, hm, MainPc.rank, hp.2.1, WalkerPc.rank]
        omega
      · rename_i hm
        rw [hm] at hp
        cases h
        simp only [State.measure, hm, MainPc.rank, hp.2.2, WatcherPc.rank]
        omega
      · rename_i hm
        split at h
        · cases h
          simp only [State.measure, hm, MainPc.rank]
          omega
        · cases h
      · rename_i res hm
        cases h
        simp only [State.measure, hm, MainPc.rank]
        omega
      · cases h
    | walker =>
      simp only [walkerStep] at h
      split at h
      · cases h
      · rename_i hw
        cases h
        simp only [State.measure, hw, WalkerPc.rank, List.length_nil]
        omega
      · rename_i e rest hw
        split at h <;> cases h <;>
          simp only [State.measure, hw, WalkerPc.rank, List.length_cons] <;> omega
      · rename_i path rest hw
        have h4 := hI.jobs
        rw [hw] at h4
        simp at h4
        split at h
        · omega
        · cases h
      · rename_i hw
        cases h
        simp only [State.measure, hw, WalkerPc.rank]
        omega
      · cases h
    | jobs w =>
      simp only [jobsHandoff] at h
      split at h
      · rename_i path rest hw hg
        split at h
        · cases h
          obtain ⟨l1, l2, e1, e2⟩ := set_split s.workers w (.hashing path) _ hg
          simp only [State.measure, hw, WalkerPc.rank, e2]
          rw [e1]
          simp only [List.map_append, List.sum_append, List.map_cons, List.sum_cons,
            WorkerPc.rank]
          omega
        · cases h
      · cases h
    | worker w =>
      simp only [workerStep] at h
      split at h
      · cases h
      · rename_i hg
        split at h
        · cases h
          obtain ⟨l1, l2, e1, e2⟩ := set_split s.workers w .deferred _ hg
          simp only [State.measure, e2]
          rw [e1]
          simp only [List.map_append, List.sum_append, List.map_cons, List.sum_cons,
            WorkerPc.rank]
          omega
        · cases h
      · rename_i path hg
        cases h
        obtain ⟨l1, l2, e1, e2⟩ := set_split s.workers w (.sending (workerBody c.fs path)) _ hg
        simp only [State.measure, e2]
        rw [e1]
        simp only [List.map_append, List.sum_append, List.map_cons, List.sum_cons,
          WorkerPc.rank]
        omega
      · rename_i res hg
        have hI2 := workerStep_inv c s t w hI (by simp only [workerStep, hg]; exact h)
        split at h
        · cases h
          have := hI2.noPanic
          simp at this
        · cases h
      · rename_i hg
        split at h
        · have hI2 := workerStep_inv c s _ w hI
            (by simp only [workerStep, hg]; rw [if_pos (by assumption)])
          have := hI2.noPanic
          simp at this
        · cases h
          obtain ⟨l1, l2, e1, e2⟩ := set_split s.workers w .done _ hg
          simp only [State.measure, e2]
          rw [e1]
          simp only [List.map_append, List.sum_append, List.map_cons, List.sum_cons,
            WorkerPc.rank]
          omega
      · cases h
    | results w =>
      simp only [resultsHandoff] at h
      split at h
      · rename_i res hm hg
        split at h
        · cases h
          obtain ⟨l1, l2, e1, e2⟩ := set_split s.workers w .recv _ hg
          simp only [State.measure, hm, MainPc.rank, e2]
          rw [e1]
          simp only [List.map_append, List.sum_append, List.map_cons, List.sum_cons,
            WorkerPc.rank]
          omega
        · cases h
      · cases h
    | watcher =>
      simp only [watcherStep] at h
      split at h
      · cases h
      · rename_i hw
        split at h
        · cases h
          simp only [State.measure, hw, WatcherPc.rank]
          omega
        · cases h
      · rename_i hw
        cases h
        simp only [State.measure, hw, WatcherPc.rank]
        omega
      · cases h

theorem run_measure (c : Config) (sched : List Action) : ∀ (s t : State), Inv c s →
    run c s sched = some t → sched.length + t.measure c ≤ s.measure c := by
  induction sched with
  | nil => intro s t _ h; simp only [run] at h; cases h; simp
  | cons a rest ih =>
    intro s t hI h
    simp only [run] at h
    split at h
    · cases h
    · rename_i u hu
      have h1 := ih u t (step_inv c s u a hI hu) h
      have h2 := step_measure c s u a hI hu
      simp only [List.length_cons]
      omega

theorem run_append (c : Config) (l1 l2 : List Action) : ∀ (s t u : State),
    run c s l1 = some t → run c t l2 = some u → run c s (l1 ++ l2) = some u := by
  induction l1 with
  | nil => intro s t u h1 h2; simp only [run] at h1; cases h1; exact h2
  | cons a rest ih =>
    intro s t u h1 h2
    simp only [run, List.cons_append] at h1 ⊢
    split at h1
    · cases h1
    · rename_i v hv
      exact ih v t u h1 h2

theorem completes_aux (c : Config) (hn : 0 < c.workerCount) (k : Nat) : ∀ (s : State),
    Inv c s → s.measure c ≤ k → ∃ sched t, run c s sched = some t ∧ t.main = .exited := by
  induction k with
  | zero =>
    intro s hI hk
    by_cases hm : s.main = .exited
    · exact ⟨[], s, rfl, hm⟩
    · obtain ⟨a, t, ht⟩ := progress c s hn hI hm
      have := step_measure c s t a hI ht
      omega
  | succ k ih =>
    intro s hI hk
    by_cases hm : s.main = .exited
    · exact ⟨[], s, rfl, hm⟩
    · obtain ⟨a, t, ht⟩ := progress c s hn hI hm
      have hlt := step_measure c s t a hI ht
      obtain ⟨sched, u, hu, hex⟩ := ih t (step_inv c s t a hI ht) (by omega)
      exact ⟨a :: sched, u, by simp only [run, ht]; exact hu, hex⟩

/-- From every reachable state the program can run to the return of `main`. -/
theorem completes (c : Config) (hn : 0 < c.workerCount) (s : State) (hr : Reachable c s) :
    ∃ sched t, run c s sched = some t ∧ t.main = .exited :=
  completes_aux c hn _ s (reachable_inv c s hr) (le_refl _)

/-- No schedule is longer than the measure of the initial state. -/
theorem schedule_bound (c : Config) (sched : List Action) (s : State)
    (h : run c State.init sched = some s) :
    sched.length ≤ 3 * c.workerCount + 10 * c.entries.length + 23 := by
  have := run_measure c sched _ _ (inv_init c) h
  simp only [State.measure, State.init, MainPc.rank, WalkerPc.rank, WatcherPc.rank,
    List.map_nil, List.sum_nil] at this
  omega

/-- From every reachable state the program can run to the return of `main`, and the
invariant holds there. -/
theorem completes_final (c : Config) (hn : 0 < c.workerCount) (s : State)
    (hr : Reachable c s) :
    ∃ sched t, run c s sched = some t ∧ t.main = .exited ∧ Inv c t := by
  obtain ⟨sched, t, h, hm⟩ := completes c hn s hr
  exact ⟨sched, t, h, hm, run_inv c sched s t (reachable_inv c s hr) h⟩

theorem closes_by (c : Config) (s t : State) (a : Action) (h : step c s a = some t) :
    (t.jobsCloses ≠ s.jobsCloses → a = .walker)
      ∧ (t.resultsCloses ≠ s.resultsCloses → a = .watcher)
      ∧ (t.sent ≠ s.sent → s.jobsCloses = 0)
      ∧ (t.received ≠ s.received → s.resultsCloses = 0) := by
  unfold step at h
  split at h
  · cases h
  · cases a <;>
      simp only [mainStep, walkerStep, jobsHandoff, workerStep, resultsHandoff,
        watcherStep] at h <;>
      (repeat' split at h) <;> cases h <;> simp_all

/-! ## The concrete run -/

set_option maxRecDepth 100000 in
theorem demo_run : run demo State.init demoSchedule = some demoFinal := by decide

set_option maxRecDepth 100000 in
theorem demo_run2 : run demo State.init demoSchedule2 = some demoFinal2 := by decide

theorem demo_reachable : Reachable demo demoFinal := ⟨demoSchedule, demo_run⟩

theorem demo_reachable2 : Reachable demo demoFinal2 := ⟨demoSchedule2, demo_run2⟩

set_option maxRecDepth 100000 in
theorem demo_runOne : run demoOne State.init demoScheduleOne = some demoFinalOne := by decide

theorem demo_reachableOne : Reachable demoOne demoFinalOne := ⟨demoScheduleOne, demo_runOne⟩

set_option maxRecDepth 100000 in
theorem demo_runPlain : run demoPlain State.init demoSchedulePlain = some demoFinalPlain := by
  decide

theorem demo_reachablePlain : Reachable demoPlain demoFinalPlain :=
  ⟨demoSchedulePlain, demo_runPlain⟩

/-! ## Test vectors of SHA-256 -/

set_option maxRecDepth 100000 in
theorem sum256_hello : sprintfHex (sha256.sum256 (bytesOf "hello"))
    = "2cf24dba5fb0a30e26e83b2ac5b9e29e1b161e5c1fa7425e73043362938b9824" := by decide

set_option maxRecDepth 100000 in
theorem sum256_empty : sprintfHex (sha256.sum256 [])
    = "e3b0c44298fc1c149afbf4c8996fb92427ae41e4649b934ca495991b7852b855" := by decide

set_option maxRecDepth 100000 in
theorem sum256_abc : sprintfHex (sha256.sum256 (bytesOf "abc"))
    = "ba7816bf8f01cfea414140de5dae2223b00361a396177a9cb410ff61f20015ad" := by decide

set_option maxRecDepth 100000 in
theorem sum256_two_blocks : sprintfHex (sha256.sum256
      (bytesOf "abcdbcdecdefdefgefghfghighijhijkijkljklmklmnlmnomnopnopq"))
    = "248d6a61d20638b8e5c026930c3e6039a33ce45964ff2167f6ecedd419db06c1" := by decide

/-! ## Sequential facts -/

theorem walk_eq (entries : List WalkEntry) :
    walk entries = ((entries.takeWhile fun e => e.err.isNone).filter fun e => !e.isDir).map
      WalkEntry.path := by
  induction entries with
  | nil => rfl
  | cons e rest ih =>
    obtain ⟨path, isDir, err⟩ := e
    cases err with
    | some x => simp [walk, walkFn]
    | none =>
      cases isDir with
      | true => simp [walk, walkFn, ih]
      | false => simp [walk, walkFn, ih]

theorem worker_eq_map (fs : FS) (jobs : List String) :
    worker fs jobs = jobs.map (workerBody fs) := by
  induction jobs with
  | nil => rfl
  | cons p rest ih => simp [worker, ih]

theorem sink_eq_map (results : List FileResult) : sink results = results.map sinkLine := by
  induction results with
  | nil => rfl
  | cons r rest ih => simp [sink, ih]

theorem hashFile_err_hash (fs : FS) (path : String) (err : Error)
    (h : (hashFile fs path).2 = some err) : hashFile fs path = ("", some err) := by
  unfold hashFile at h ⊢
  split
  · rename_i e he
    simp only [he] at h
    simpa using h
  · rename_i chunks readErr he
    simp only [he] at h
    rw [ioCopy_eq] at h ⊢
    cases readErr with
    | none => simp at h
    | some e => simpa using h

theorem sprintfHex_sum256_ne (msg : List UInt8) : sprintfHex (sha256.sum256 msg) ≠ "" := by
  intro h
  have := sprintfHex_length (sha256.sum256 msg)
  rw [h, sha256.sum256_length] at this
  simp at this

theorem workerBody_exactlyOne (fs : FS) (path : String) : (workerBody fs path).ExactlyOne := by
  unfold FileResult.ExactlyOne workerBody
  cases hf : fs path with
  | openFails err => simp [hashFile_openFails fs path err hf]
  | readable chunks readErr =>
    cases readErr with
    | some err => simp [hashFile_readErr fs path chunks err hf]
    | none =>
      simp [hashFile_readable fs path chunks hf, sprintfHex_sum256_ne]

theorem printed_results (out : List Out) :
    (out.filter fun o => o.result?.isSome).map Out.text
      = (out.filterMap Out.result?).map sinkLine := by
  induction out with
  | nil => rfl
  | cons o rest ih =>
    cases o with
    | hashing p =>
      rw [List.filter_cons_of_neg (by simp [Out.result?]), List.filterMap_cons_none rfl]
      exact ih
    | result r =>
      rw [List.filter_cons_of_pos (by simp [Out.result?]),
        List.filterMap_cons_some (rfl : Out.result? (.result r) = some r)]
      simp only [List.map_cons, Out.text, ih]

theorem hashing_mem (path : String) (out : List Out) (h : 0 < hashingsFor path out) :
    Out.hashing path ∈ out := by
  unfold hashingsFor at h
  have hm : path ∈ out.filterMap Out.hashing? := List.count_pos_iff.mp h
  obtain ⟨o, ho, he⟩ := List.mem_filterMap.mp hm
  cases o with
  | hashing p =>
    simp only [Out.hashing?, Option.some.injEq] at he
    rw [← he]
    exact ho
  | result r => simp [Out.hashing?] at he

theorem announced_pending (c : Config) (wk : WalkerPc) :
    ∃ rest, wk.announced ++ rest = wk.pending c := by
  cases wk <;> simp [WalkerPc.announced, WalkerPc.pending]

theorem workers_done_of_closed (c : Config) (s : State) (hI : Inv c s)
    (h : 0 < s.resultsCloses) : s.workers = List.replicate c.workerCount .done := by
  have h5 := hI.results
  have hwt : s.watcher = .done := by
    by_contra hne
    rw [if_neg hne] at h5
    omega
  have hall := all_done_of_wg c s hI (hI.watcherLate (Or.inr hwt))
  have hp := hI.phase
  unfold PhaseOk at hp
  rw [List.eq_replicate_iff]
  refine ⟨?_, hall⟩
  revert hp
  cases s.main <;> simp [hwt] <;> intros <;> assumption

/-! ## The claims -/

/-- C1: with a positive worker count, in every reachable state the results owed for the paths
sent on `jobs` are, as a multiset, the results the sink has received together with those
still held by workers; the run can always be completed; and once `main` has returned the
paths of the received results are a permutation of the paths sent on `jobs`, which are the
paths of the walk, each with the one result `worker` computes for it, so that the number of
results is the number of files (in particular with one worker). -/
theorem pipeline_conservation (c : Config) (s : State) (hn : 0 < c.workerCount)
    (hr : Reachable c s) :
    (s.sent.map (workerBody c.fs)).Perm
        (s.received ++ s.workers.flatMap (WorkerPc.inflight c.fs))
      ∧ (∃ sched t, run c s sched = some t ∧ t.main = .exited)
      ∧ (s.main = .exited →
          s.sent = walk c.entries
          ∧ (s.received.map FileResult.Path).Perm s.sent
          ∧ s.received.Perm (s.sent.map (workerBody c.fs))
          ∧ s.received.length = (walk c.entries).length) := by
  have hI := reachable_inv c s hr
  refine ⟨hI.conserved, completes c hn s hr, ?_⟩
  intro hm
  obtain ⟨_, _, _, _, _, hsent, hperm, _, _⟩ := final_facts c s hn hI hm
  refine ⟨hsent, ?_, hperm.symm, ?_⟩
  · have := (hperm.map FileResult.Path).symm
    simpa [Function.comp_def, workerBody_path] using this
  · rw [← hsent, ← hperm.length_eq, List.length_map]

/-- C1, at the scenario run by a single worker: three files, three results. -/
theorem pipeline_conservation_witness :
    0 < demoOne.workerCount ∧ Reachable demoOne demoFinalOne
      ∧ demoFinalOne.main = .exited
      ∧ demoFinalOne.received.length = (walk demoOne.entries).length
      ∧ (demoFinalOne.received.map FileResult.Path).Perm demoFinalOne.sent :=
  have h := (pipeline_conservation demoOne demoFinalOne (by decide) demo_reachableOne).2.2 rfl
  ⟨by decide, demo_reachableOne, rfl, h.2.2.2, h.2.1⟩

/-- C2: for a file that opens and reads to the end, whatever the chunks it is read in,
`hashFile` returns a nil error and the SHA-256 of the concatenated content as 64 lowercase
hexadecimal characters, and the result of the worker carries this digest; the digest of "hello"
is 2cf24d...9824 and that of the empty content is e3b0c4...b855. -/
theorem hashFile_digest (fs : FS) (path : String) (chunks : List (List UInt8))
    (h : fs path = .readable chunks none) :
    hashFile fs path = (sprintfHex (sha256.sum256 chunks.flatten), none)
      ∧ workerBody fs path
          = { Path := path, Hash := sprintfHex (sha256.sum256 chunks.flatten), Err := none }
      ∧ (sprintfHex (sha256.sum256 chunks.flatten)).length = 64
      ∧ (∀ ch ∈ (sprintfHex (sha256.sum256 chunks.flatten)).toList,
          ch ∈ "0123456789abcdef".toList)
      ∧ sprintfHex (sha256.sum256 (bytesOf "hello"))
          = "2cf24dba5fb0a30e26e83b2ac5b9e29e1b161e5c1fa7425e73043362938b9824"
      ∧ sprintfHex (sha256.sum256 [])
          = "e3b0c44298fc1c149afbf4c8996fb92427ae41e4649b934ca495991b7852b855" := by
  refine ⟨hashFile_readable fs path chunks h, ?_, ?_, sprintfHex_chars _, sum256_hello,
    sum256_empty⟩
  · simp only [workerBody, hashFile_readable fs path chunks h]
  · rw [sprintfHex_length, sha256.sum256_length]

/-- C2, at the scenario: `a.txt`, read in one chunk, hashes to the digest of "hello". -/
theorem hashFile_digest_witness :
    demoFS "testdata/a.txt" = .readable [bytesOf "hello"] none
      ∧ hashFile demoFS "testdata/a.txt"
          = ("2cf24dba5fb0a30e26e83b2ac5b9e29e1b161e5c1fa7425e73043362938b9824", none) :=
  have hf : demoFS "testdata/a.txt" = .readable [bytesOf "hello"] none := by decide
  have h := hashFile_digest demoFS "testdata/a.txt" [bytesOf "hello"] hf
  ⟨hf, by rw [h.1, ← h.2.2.2.2.1]; simp⟩

/-- C3: for any worker count, no reachable state has panicked (no send on a closed channel,
no second close); each channel has been closed at most once, `jobs` exactly when the walk
goroutine has returned, by when every send on `jobs` has happened, and `results` exactly
when the watcher has returned, by when every worker has returned; only a step of the walk
goroutine changes the close count of `jobs` and only a step of the watcher that of
`results`, and a value passes through a channel only while it is open; when `main` has
returned `results` has been closed exactly once, and so has `jobs` if there is a worker;
and with a worker, from every reachable state, whether the walk ends normally or with an
error, the program does run to the return of `main`, without a panic and with each channel
closed exactly once: neither channel is left open. -/
theorem channels_closed_once (c : Config) (s : State) (hr : Reachable c s) :
    s.panicked = false
      ∧ s.jobsCloses ≤ 1 ∧ s.resultsCloses ≤ 1
      ∧ (s.jobsCloses = 1 ↔ s.walker = .done)
      ∧ (s.resultsCloses = 1 ↔ s.watcher = .done)
      ∧ (0 < s.jobsCloses → s.sent = walk c.entries)
      ∧ (0 < s.resultsCloses → s.workers = List.replicate c.workerCount .done)
      ∧ (∀ a t, step c s a = some t →
          (t.jobsCloses ≠ s.jobsCloses → a = .walker)
          ∧ (t.resultsCloses ≠ s.resultsCloses → a = .watcher)
          ∧ (t.sent ≠ s.sent → s.jobsCloses = 0)
          ∧ (t.received ≠ s.received → s.resultsCloses = 0))
      ∧ (s.main = .exited → s.resultsCloses = 1 ∧ (0 < c.workerCount → s.jobsCloses = 1))
      ∧ (0 < c.workerCount →
          ∃ sched t, run c s sched = some t ∧ t.main = .exited ∧ t.panicked = false
            ∧ t.jobsCloses = 1 ∧ t.resultsCloses = 1
            ∧ t.walker = .done ∧ t.watcher = .done
            ∧ t.workers = List.replicate c.workerCount .done) := by
  have hI := reachable_inv c s hr
  have h4 := hI.jobs
  have h5 := hI.results
  refine ⟨hI.noPanic, ?_, ?_, ?_, ?_, ?_, workers_done_of_closed c s hI,
    fun a t h => closes_by c s t a h, ?_, ?_⟩
  · rw [h4]; split <;> omega
  · rw [h5]; split <;> omega
  · rw [h4]; by_cases hd : s.walker = .done <;> simp [hd]
  · rw [h5]; by_cases hd : s.watcher = .done <;> simp [hd]
  · intro hpos
    have hd : s.walker = .done := by
      by_contra hne
      rw [if_neg hne] at h4
      omega
    have h8 := hI.walked
    rw [hd] at h8
    simpa [WalkerPc.pending] using h8
  · intro hm
    have hp := hI.phase
    unfold PhaseOk at hp
    rw [hm] at hp
    refine ⟨by rw [h5, if_pos hp.2.2], fun hn => ?_⟩
    exact (final_facts c s hn hI hm).2.2.2.1
  · intro hn
    obtain ⟨sched, t, hrun, hm, hIt⟩ := completes_final c hn s hr
    obtain ⟨hwk, hwt, hws, hj, hres, _⟩ := final_facts c t hn hIt hm
    exact ⟨sched, t, hrun, hm, hIt.noPanic, hj, hres, hwk, hwt, hws⟩

/-- C3, at two runs of two workers, one over a walk that ends normally and one over a walk
that ends in an error: at the return of `main` each channel has been closed exactly once,
and from the initial state of each the program runs to such a state. -/
theorem channels_closed_once_witness :
    (Reachable demoPlain demoFinalPlain ∧ demoFinalPlain.main = .exited
        ∧ walk demoPlain.entries = ["testdata/a.txt", "testdata/b/c.txt"]
        ∧ demoFinalPlain.panicked = false
        ∧ demoFinalPlain.jobsCloses = 1 ∧ demoFinalPlain.resultsCloses = 1)
      ∧ (Reachable demoPlain State.init ∧ 0 < demoPlain.workerCount
        ∧ ∃ sched t, run demoPlain State.init sched = some t ∧ t.main = .exited
            ∧ t.panicked = false ∧ t.jobsCloses = 1 ∧ t.resultsCloses = 1
            ∧ t.walker = .done ∧ t.watcher = .done
            ∧ t.workers = List.replicate demoPlain.workerCount .done)
      ∧ (Reachable demo demoFinal ∧ demoFinal.main = .exited
        ∧ demoFinal.panicked = false
        ∧ demoFinal.jobsCloses = 1 ∧ demoFinal.resultsCloses = 1) :=
  have hp := channels_closed_once demoPlain demoFinalPlain demo_reachablePlain
  have hi := channels_closed_once demoPlain State.init ⟨[], rfl⟩
  have he := channels_closed_once demo demoFinal demo_reachable
  ⟨⟨demo_reachablePlain, rfl, by decide, hp.1,
      (hp.2.2.2.2.2.2.2.2.1 rfl).2 (by decide), (hp.2.2.2.2.2.2.2.2.1 rfl).1⟩,
    ⟨⟨[], rfl⟩, by decide, hi.2.2.2.2.2.2.2.2.2 (by decide)⟩,
    ⟨demo_reachable, rfl, he.1,
      (he.2.2.2.2.2.2.2.2.1 rfl).2 (by decide), (he.2.2.2.2.2.2.2.2.1 rfl).1⟩⟩

/-- C4: when hashing one job fails, the worker still emits one result per job, in job order;
the failing job gets a result with the error and an empty digest, and the other jobs get
the results they get when the failing job is not in the list. -/
theorem worker_continues (fs : FS) (before after : List String) (path : String) (err : Error)
    (hfail : (hashFile fs path).2 = some err) :
    (worker fs (before ++ path :: after)).length = (before ++ path :: after).length
      ∧ (worker fs (before ++ path :: after)).map FileResult.Path = before ++ path :: after
      ∧ worker fs (before ++ path :: after)
          = worker fs before ++ { Path := path, Hash := "", Err := some err } :: worker fs after
      ∧ worker fs (before ++ after) = worker fs before ++ worker fs after := by
  have hb : workerBody fs path = { Path := path, Hash := "", Err := some err } := by
    simp only [workerBody, hashFile_err_hash fs path err hfail]
  simp only [worker_eq_map, List.map_append, List.map_cons, hb, List.length_append,
    List.length_map, List.length_cons, List.map_map, true_and, and_true]
  have hp : FileResult.Path ∘ workerBody fs = id := by
    funext p
    rfl
  simp [hp]

/-- C4, at the scenario: the file that cannot be opened, between the two that hash. -/
theorem worker_continues_witness :
    (hashFile demoFS "testdata/locked").2 = some "open testdata/locked: permission denied"
      ∧ worker demoFS (["testdata/a.txt"] ++ "testdata/locked" :: ["testdata/b/c.txt"])
          = worker demoFS ["testdata/a.txt"] ++ demoLocked :: worker demoFS ["testdata/b/c.txt"]
      ∧ worker demoFS (["testdata/a.txt"] ++ ["testdata/b/c.txt"])
          = worker demoFS ["testdata/a.txt"] ++ worker demoFS ["testdata/b/c.txt"] :=
  have hf : (hashFile demoFS "testdata/locked").2
      = some "open testdata/locked: permission denied" := by decide
  have h := worker_continues demoFS ["testdata/a.txt"] ["testdata/b/c.txt"] "testdata/locked"
    "open testdata/locked: permission denied" hf
  ⟨hf, h.2.2.1, h.2.2.2⟩

/-- C5: `hashFile` returns the open error, or the read error, unmodified and with an empty
digest exactly when opening or reading fails, and otherwise a nil error with a non-empty
digest; so every result a worker emits has exactly one of `Hash` and `Err` populated. -/
theorem result_exactly_one (fs : FS) (path : String) (jobs : List String) :
    (match fs path with
      | .openFails err => hashFile fs path = ("", some err)
      | .readable _ (some err) => hashFile fs path = ("", some err)
      | .readable chunks none =>
        hashFile fs path = (sprintfHex (sha256.sum256 chunks.flatten), none)
          ∧ sprintfHex (sha256.sum256 chunks.flatten) ≠ "")
      ∧ (workerBody fs path).ExactlyOne
      ∧ ∀ res ∈ worker fs jobs, res.ExactlyOne := by
  refine ⟨?_, workerBody_exactlyOne fs path, ?_⟩
  · split
    · rename_i err he
      exact hashFile_openFails fs path err he
    · rename_i chunks err he
      exact hashFile_readErr fs path chunks err he
    · rename_i chunks he
      exact ⟨hashFile_readable fs path chunks he, sprintfHex_sum256_ne _⟩
  · intro res hres
    rw [worker_eq_map] at hres
    obtain ⟨p, _, rfl⟩ := List.mem_map.mp hres
    exact workerBody_exactlyOne fs p

/-- C6: the paths of the walk are the non-directory entries of the traversal, in order, up
to the first entry reported with an error; the paths sent on `jobs` are at every moment an
initial segment of them, and all of them once `main` has returned, which with a worker
the program does from every reachable state. -/
theorem dispatch_sequence (c : Config) (s : State) (hr : Reachable c s) :
    walk c.entries
        = ((c.entries.takeWhile fun e => e.err.isNone).filter fun e => !e.isDir).map
            WalkEntry.path
      ∧ (∃ rest, s.sent ++ rest = walk c.entries)
      ∧ (0 < c.workerCount → s.main = .exited → s.sent = walk c.entries)
      ∧ (0 < c.workerCount →
          ∃ sched t, run c s sched = some t ∧ t.main = .exited
            ∧ t.sent = walk c.entries) := by
  have hI := reachable_inv c s hr
  refine ⟨walk_eq c.entries, ⟨_, hI.walked⟩, ?_, ?_⟩
  · intro hn hm
    exact (final_facts c s hn hI hm).2.2.2.2.2.1
  · intro hn
    obtain ⟨sched, t, hrun, hm, hIt⟩ := completes_final c hn s hr
    exact ⟨sched, t, hrun, hm, (final_facts c t hn hIt hm).2.2.2.2.2.1⟩

/-- C6, at the scenario: the directories and everything from the unreadable directory on
are left out. -/
theorem dispatch_sequence_witness :
    Reachable demo demoFinal
      ∧ demoFinal.sent = walk demo.entries
      ∧ walk demo.entries = ["testdata/a.txt", "testdata/b/c.txt", "testdata/locked"] :=
  have h := dispatch_sequence demo demoFinal demo_reachable
  ⟨demo_reachable, h.2.2.1 (by decide) rfl, by decide⟩

/-- C7: the sink writes one line per result, in arrival order, `ERR: <path> (<message>)` for
a result with an error and `<hash>  <path>` otherwise; a result with an error does not stop
the results after it from being printed; and in the pipeline the result lines on standard
output are those of the results received, in the order received, all of them once `main`
has returned, which with a worker the program does from every reachable state. -/
theorem sink_lines (c : Config) (s : State) (results : List FileResult)
    (hr : Reachable c s) :
    sink results
        = results.map (fun res =>
            match res.Err with
            | some err => "ERR: " ++ res.Path ++ " (" ++ err ++ ")\n"
            | none => res.Hash ++ "  " ++ res.Path ++ "\n")
      ∧ (∀ pre res post, sink (pre ++ res :: post) = sink pre ++ sinkLine res :: sink post)
      ∧ s.stdout.filterMap Out.result? ++ s.main.unprinted = s.received
      ∧ (s.main = .exited →
          (s.stdout.filter fun o => o.result?.isSome).map Out.text = sink s.received)
      ∧ (0 < c.workerCount →
          ∃ sched t, run c s sched = some t ∧ t.main = .exited
            ∧ (t.stdout.filter fun o => o.result?.isSome).map Out.text
                = sink t.received) := by
  have hI := reachable_inv c s hr
  have hexit : ∀ u : State, Inv c u → u.main = .exited →
      (u.stdout.filter fun o => o.result?.isSome).map Out.text = sink u.received := by
    intro u hIu hm
    have h := hIu.resultLines
    rw [hm] at h
    simp only [MainPc.unprinted, List.append_nil] at h
    rw [printed_results, h, sink_eq_map]
  refine ⟨?_, ?_, hI.resultLines, hexit s hI, ?_⟩
  · rw [sink_eq_map]
    apply List.map_congr_left
    intro res _
    unfold sinkLine
    rfl
  · intro pre res post
    simp only [sink_eq_map, List.map_append, List.map_cons]
  · intro hn
    obtain ⟨sched, t, hrun, hm, hIt⟩ := completes_final c hn s hr
    exact ⟨sched, t, hrun, hm, hexit t hIt hm⟩

/-- C7, at the scenario: the three result lines, the error line among them. -/
theorem sink_lines_witness :
    Reachable demo demoFinal
      ∧ (demoFinal.stdout.filter fun o => o.result?.isSome).map Out.text
          = sink demoFinal.received
      ∧ sink demoFinal.received
          = ["e3b0c44298fc1c149afbf4c8996fb92427ae41e4649b934ca495991b7852b855  testdata/b/c.txt\n",
             "ERR: testdata/locked (open testdata/locked: permission denied)\n",
             "2cf24dba5fb0a30e26e83b2ac5b9e29e1b161e5c1fa7425e73043362938b9824  testdata/a.txt\n"] :=
  have h := sink_lines demo demoFinal demoFinal.received demo_reachable
  ⟨demo_reachable, h.2.2.2.1 rfl, by decide⟩

/-- C8: two files with the same bytes, whatever their paths, file systems and the chunks
they are read in, get the same digest; and two completed runs of the pipeline over the same
traversal and file system, under any two schedules, deliver the same results up to order,
hence the same (path, digest) pairs; and the program does complete a run from its initial
state, with these results. -/
theorem digest_deterministic (fs1 fs2 : FS) (p1 p2 : String) (ch1 ch2 : List (List UInt8))
    (c : Config) (s1 s2 : State)
    (h1 : fs1 p1 = .readable ch1 none) (h2 : fs2 p2 = .readable ch2 none)
    (hbytes : ch1.flatten = ch2.flatten) (hn : 0 < c.workerCount)
    (hr1 : Reachable c s1) (hr2 : Reachable c s2)
    (hm1 : s1.main = .exited) (hm2 : s2.main = .exited) :
    hashFile fs1 p1 = hashFile fs2 p2
      ∧ s1.received.Perm s2.received
      ∧ (s1.received.map fun res => (res.Path, res.Hash)).Perm
          (s2.received.map fun res => (res.Path, res.Hash))
      ∧ (∃ sched t, run c State.init sched = some t ∧ t.main = .exited
          ∧ t.received.Perm s1.received) := by
  obtain ⟨_, _, _, _, _, e1, q1, _, _⟩ := final_facts c s1 hn (reachable_inv c s1 hr1) hm1
  obtain ⟨_, _, _, _, _, e2, q2, _, _⟩ := final_facts c s2 hn (reachable_inv c s2 hr2) hm2
  rw [e1] at q1
  rw [e2] at q2
  have hp : s1.received.Perm s2.received := q1.symm.trans q2
  refine ⟨?_, hp, hp.map _, ?_⟩
  · rw [hashFile_readable fs1 p1 ch1 h1, hashFile_readable fs2 p2 ch2 h2, hbytes]
  · obtain ⟨sched, t, hrun, hm, hIt⟩ := completes_final c hn State.init ⟨[], rfl⟩
    obtain ⟨_, _, _, _, _, e3, q3, _, _⟩ := final_facts c t hn hIt hm
    rw [e3] at q3
    exact ⟨sched, t, hrun, hm, q3.symm.trans q1⟩

/-- C8, at the scenario: `a.txt` read in one chunk and a copy of it read in three have
the same digest, and the two schedules deliver the same results in different orders. -/
theorem digest_deterministic_witness :
    demoFS "testdata/a.txt" = .readable [bytesOf "hello"] none
      ∧ (fun _ => File.readable [bytesOf "he", [], bytesOf "llo"] none) "copy"
          = File.readable [bytesOf "he", [], bytesOf "llo"] none
      ∧ [bytesOf "hello"].flatten = [bytesOf "he", [], bytesOf "llo"].flatten
      ∧ 0 < demo.workerCount ∧ Reachable demo demoFinal ∧ Reachable demo demoFinal2
      ∧ demoFinal.main = .exited ∧ demoFinal2.main = .exited
      ∧ hashFile demoFS "testdata/a.txt"
          = hashFile (fun _ => File.readable [bytesOf "he", [], bytesOf "llo"] none) "copy"
      ∧ demoFinal.received.Perm demoFinal2.received :=
  have hf : demoFS "testdata/a.txt" = .readable [bytesOf "hello"] none := by decide
  have hb : [bytesOf "hello"].flatten = [bytesOf "he", [], bytesOf "llo"].flatten := by decide
  have h := digest_deterministic demoFS (fun _ => .readable [bytesOf "he", [], bytesOf "llo"] none)
    "testdata/a.txt" "copy" _ _ demo demoFinal demoFinal2 hf rfl hb (by decide)
    demo_reachable demo_reachable2 rfl rfl
  ⟨hf, rfl, hb, by decide, demo_reachable, demo_reachable2, rfl, rfl, h.1, h.2.1⟩

/-- C9: in every reachable state each result line on standard output has before it more
`Hashing:` lines for its path than result lines for that path, so a `Hashing:` line of its
own precedes it; the `Hashing:` lines are at every moment an initial segment of the paths of
the walk, one line per path, and all of them once `main` has returned, which with a worker
the program does from every reachable state. -/
theorem hashing_precedes (c : Config) (s : State) (hr : Reachable c s) :
    (∀ pre res post, s.stdout = pre ++ Out.result res :: post →
        resultsFor res.Path pre < hashingsFor res.Path pre ∧ Out.hashing res.Path ∈ pre)
      ∧ (∃ rest, s.stdout.filterMap Out.hashing? ++ rest = walk c.entries)
      ∧ (0 < c.workerCount → s.main = .exited →
          s.stdout.filterMap Out.hashing? = walk c.entries)
      ∧ (0 < c.workerCount →
          ∃ sched t, run c s sched = some t ∧ t.main = .exited
            ∧ t.stdout.filterMap Out.hashing? = walk c.entries) := by
  have hI := reachable_inv c s hr
  refine ⟨?_, ?_, ?_, ?_⟩
  · intro pre res post e
    have h := hI.ordered pre res post e
    exact ⟨h, hashing_mem _ _ (by omega)⟩
  · obtain ⟨rest, hrest⟩ := announced_pending c s.walker
    refine ⟨rest, ?_⟩
    rw [hI.hashLines, List.append_assoc, hrest]
    exact hI.walked
  · intro hn hm
    obtain ⟨_, _, _, _, _, hsent, _, _, hh⟩ := final_facts c s hn hI hm
    rw [hh, hsent]
  · intro hn
    obtain ⟨sched, t, hrun, hm, hIt⟩ := completes_final c hn s hr
    obtain ⟨_, _, _, _, _, hsent, _, _, hh⟩ := final_facts c t hn hIt hm
    exact ⟨sched, t, hrun, hm, by rw [hh, hsent]⟩

/-- C9, at the scenario: the `Hashing:` line of `a.txt` precedes its result line, printed
last. -/
theorem hashing_precedes_witness :
    Reachable demo demoFinal
      ∧ Out.hashing demoA.Path ∈ demoFinal.stdout.take 5
      ∧ demoFinal.stdout.filterMap Out.hashing? = walk demo.entries :=
  have h := hashing_precedes demo demoFinal demo_reachable
  ⟨demo_reachable, (h.1 (demoFinal.stdout.take 5) demoA [] rfl).2,
    h.2.2.1 (by decide) rfl⟩

/-- C10: with a positive worker count, every reachable state is either the final state, in
which `main` has returned, both channels are closed, every worker has returned and the
sink has received and printed the one result of every path of the walk, or a state in
which some action is enabled; and no schedule from it is longer than its measure, so that
every run ends, and ends in the final state. -/
theorem never_stuck (c : Config) (s : State) (hn : 0 < c.workerCount)
    (hr : Reachable c s) :
    ((s.main = .exited ∧ s.jobsCloses = 1 ∧ s.resultsCloses = 1
        ∧ s.walker = .done ∧ s.watcher = .done
        ∧ s.workers = List.replicate c.workerCount .done
        ∧ s.received.Perm ((walk c.entries).map (workerBody c.fs))
        ∧ s.stdout.filterMap Out.result? = s.received)
        ∨ ∃ a t, step c s a = some t)
      ∧ ∀ sched t, run c s sched = some t → sched.length + t.measure c ≤ s.measure c := by
  have hI := reachable_inv c s hr
  refine ⟨?_, fun sched t h => run_measure c sched s t hI h⟩
  by_cases hm : s.main = .exited
  · left
    obtain ⟨hwk, hwt, hws, hj, hres, hsent, hperm, hout, _⟩ := final_facts c s hn hI hm
    rw [hsent] at hperm
    exact ⟨hm, hj, hres, hwk, hwt, hws, hperm.symm, hout⟩
  · exact Or.inr (progress c s hn hI hm)

/-- C10, at the scenario: the initial state is not final, so it can take a step. -/
theorem never_stuck_witness :
    0 < demo.workerCount ∧ Reachable demo State.init
      ∧ ∃ a t, step demo State.init a = some t :=
  have hr : Reachable demo State.init := ⟨[], rfl⟩
  ⟨by decide, hr, (never_stuck demo State.init (by decide) hr).1.resolve_left
    (fun h => absurd h.1 (by decide))⟩

end FileChecker
